import Mathlib

/-!
Shallow embedding of the ingestion-and-retrieval core of the gov_bot_tg
repository (src/shared/utils.py, src/shared/ingest.py, src/shared/retrieval.py,
src/worker/tasks.py), together with theorems settling the frozen claims.

Modelling conventions:
* Python `str` is modelled as Lean `String` / `List Char` (Python indexes and
  slices by Unicode code point, as does Lean's `List Char`).
* Python `float` scores are modelled as `ℚ` (only comparison, `max`, and
  `1 - x` are performed on scores in the source).
* UUID primary keys are modelled as `Nat`; timestamps as a `Nat` clock.
* `hashlib.sha256` / `hashlib.sha1` are opaque to the program logic (the code
  only compares digests for equality), so they are passed in as function
  parameters `sha : String → String`.
* Character classes (`str.lower`, `str.isalpha`, `\s`, `\w`) are implemented
  for the alphabets actually processed by this program: ASCII plus the
  Cyrillic block (U+0400–U+04FF, and Ґ/ґ U+0490/U+0491), which covers the
  Ukrainian/Russian legal texts the regexes in src/shared/ingest.py target.
-/

set_option maxRecDepth 8000

namespace GovBot

/-! ## src/shared/utils.py -/

/-- Characters matched by the regex `[ \t ]+` (`_ws_re`). -/
def isWsCh (c : Char) : Bool := c = ' ' || c = '\t' || c = ' '

/-- Python `str.strip()` whitespace (`\s` for the normalization pipeline):
space, tab, LF, CR, vertical tab, form feed, file/group/record separators,
NEL, NBSP, LINE/PARAGRAPH SEPARATOR. -/
def isPySpace (c : Char) : Bool :=
  c = ' ' || c = '\t' || c = '\n' || c = '\r' || c = '\x0b' || c = '\x0c' ||
  c = '\x1c' || c = '\x1d' || c = '\x1e' || c = '\u0085' || c = ' ' ||
  c = ' ' || c = ' '

/-- `s.replace("\r\n", "\n").replace("\r", "\n")` fused into one scan. -/
def crlfToLf : List Char → List Char
  | [] => []
  | '\r' :: '\n' :: rest => '\n' :: crlfToLf rest
  | '\r' :: rest => '\n' :: crlfToLf rest
  | c :: rest => c :: crlfToLf rest

theorem dropWhile_length_le (p : Char → Bool) :
    ∀ l : List Char, (l.dropWhile p).length ≤ l.length := by
  intro l
  induction l with
  | nil => simp
  | cons c rest ih =>
    by_cases h : p c
    · simpa [List.dropWhile, h] using Nat.le_succ_of_le ih
    · simp [List.dropWhile, h]

/-- `_ws_re.sub(" ", s)`: every maximal run of space/tab/NBSP becomes one
space.  Processed right to left: a whitespace character contributes a space
only when the already-collapsed tail does not begin with the space standing
for the rest of the same run. -/
def collapseWs : List Char → List Char
  | [] => []
  | c :: rest =>
    let r := collapseWs rest
    if isWsCh c then
      match r with
      | ' ' :: _ => r
      | _ => ' ' :: r
    else c :: r

/-- What `_nl_re.sub("\n\n", s)` leaves of a maximal run of `n` newlines:
runs of three or more become two, shorter runs are kept. -/
def collapseNlEmit (n : Nat) : List Char :=
  if 3 ≤ n then ['\n', '\n'] else List.replicate n '\n'

/-- `_nl_re.sub("\n\n", s)`, scanning left to right; `n` counts the pending
newline run. -/
def collapseNlAux : Nat → List Char → List Char
  | n, [] => collapseNlEmit n
  | n, c :: rest =>
    if c = '\n' then collapseNlAux (n + 1) rest
    else collapseNlEmit n ++ c :: collapseNlAux 0 rest

def collapseNl (l : List Char) : List Char := collapseNlAux 0 l

/-- No three consecutive newlines (the normal form `_nl_re` establishes). -/
def noTripleNl : List Char → Bool
  | a :: b :: c :: rest =>
    !(a = '\n' && b = '\n' && c = '\n') && noTripleNl (b :: c :: rest)
  | _ => true

/-- Whitespace normal form established by `_ws_re`: every whitespace-class
character is a plain space. -/
def wsCharsOk (l : List Char) : Prop := ∀ c ∈ l, isWsCh c → c = ' '

/-- Whitespace normal form established by `_ws_re`: no two adjacent spaces. -/
def wsChainOk (l : List Char) : Prop :=
  List.Chain' (fun a b => ¬(a = ' ' ∧ b = ' ')) l

/-- Python `rstrip()` over a character list. -/
def pyRstripL : List Char → List Char
  | [] => []
  | c :: rest =>
    let r := pyRstripL rest
    if r.isEmpty && isPySpace c then [] else c :: r

/-- Python `strip()` over a character list. -/
def pyStripL (l : List Char) : List Char := pyRstripL (l.dropWhile isPySpace)

/-- Python `str.strip()`. -/
def pyStrip (s : String) : String := String.mk (pyStripL s.data)

/-- `utils.normalize_text`. -/
def normalize_text (s : String) : String :=
  String.mk (pyStripL (collapseNl (collapseWs (crlfToLf s.data))))

/-- `utils.estimate_tokens`. -/
def estimate_tokens (text : String) : Nat := max 1 (text.length / 4)

/-- Python slice `text[i:j]` on a character list. -/
def pySlice (cs : List Char) (i j : Nat) : List Char := (cs.drop i).take (j - i)

/-- `utils.compact_quote`. -/
def compact_quote (text : String) (maxLen : Nat) : String :=
  let t := normalize_text text
  if t.length ≤ maxLen then t
  else String.mk (pyRstripL (t.data.take (maxLen - 1))) ++ "…"

/-- The `while i < n` loop of `utils.chunk_text`, after the overlap has been
reduced below the chunk size.  `i` is the window start. -/
def chunkLoop (cs : List Char) (size overlap : Nat) (hso : overlap < size)
    (i : Nat) : List String :=
  if hin : i < cs.length then
    let j := min cs.length (i + size)
    let piece := pyStrip (String.mk (pySlice cs i j))
    if hj : j = cs.length then
      (if piece = "" then [] else [piece])
    else
      (if piece = "" then [] else [piece]) ++
        chunkLoop cs size overlap hso (j - overlap)
  else []
termination_by cs.length - i
decreasing_by
  have hmin : min cs.length (i + size) = i + size := by
    rcases Nat.le_total cs.length (i + size) with h | h
    · omega
    · exact Nat.min_eq_right h
  omega

/-- `utils.chunk_text`.  The source takes Python ints; the claims only concern
`chunk_size > 0` and `overlap ≥ 0`, so sizes are `Nat` here (`chunk_size = 0`
takes the `chunk_size <= 0` early return of the source). -/
def chunk_text (text : String) (size overlap : Nat) : List String :=
  let t := normalize_text text
  if hsz : size = 0 then [t]
  else
    if hov : size ≤ overlap then
      chunkLoop t.data size (size / 4)
        (Nat.div_lt_self (Nat.pos_of_ne_zero hsz) (by decide)) 0
    else
      chunkLoop t.data size overlap (Nat.lt_of_not_le hov) 0

/-! ## src/shared/ingest.py — settings and character classes

`settings.chunk_size_chars` / `chunk_overlap_chars` /
`max_context_chars` default values from src/shared/settings.py. -/

def chunk_size_chars : Nat := 1200

def chunk_overlap_chars : Nat := 200

def max_context_chars : Nat := 14000

/-- Python `str.lower` on the alphabets this program processes (ASCII and
Cyrillic, including Ukrainian Ґ). -/
def pyLowerChar (c : Char) : Char :=
  if 'A' ≤ c && c ≤ 'Z' then Char.ofNat (c.toNat + 32)
  else if 0x410 ≤ c.toNat && c.toNat ≤ 0x42F then Char.ofNat (c.toNat + 0x20)
  else if 0x400 ≤ c.toNat && c.toNat ≤ 0x40F then Char.ofNat (c.toNat + 0x50)
  else if c.toNat = 0x490 then Char.ofNat 0x491
  else c

/-- Python `str.upper` on the same alphabets. -/
def pyUpperChar (c : Char) : Char :=
  if 'a' ≤ c && c ≤ 'z' then Char.ofNat (c.toNat - 32)
  else if 0x430 ≤ c.toNat && c.toNat ≤ 0x44F then Char.ofNat (c.toNat - 0x20)
  else if 0x450 ≤ c.toNat && c.toNat ≤ 0x45F then Char.ofNat (c.toNat - 0x50)
  else if c.toNat = 0x491 then Char.ofNat 0x490
  else c

/-- Python `str.isalpha` on the same alphabets. -/
def isPyAlpha (c : Char) : Bool :=
  ('A' ≤ c && c ≤ 'Z') || ('a' ≤ c && c ≤ 'z') ||
  (0x400 ≤ c.toNat && c.toNat ≤ 0x4FF)

/-- The superscript-digit class `[¹²³⁴⁵⁶⁷⁸⁹]` of `_RE_ARTICLE`. -/
def isSupDigit (c : Char) : Bool :=
  c = '¹' || c = '²' || c = '³' || c = '⁴' || c = '⁵' ||
  c = '⁶' || c = '⁷' || c = '⁸' || c = '⁹'

/-- Regex `\w` (word character) on the modelled alphabets.  Python's `\w` is
Unicode-aware: it also contains the superscript digits (`'¹'.isdigit()` is
`True`, hence `isalnum`), which matters for the `\b` checks after numbers. -/
def isWordChar (c : Char) : Bool :=
  c.isDigit || isPyAlpha c || c = '_' || isSupDigit c || c = '⁰'

/-- Strip a case-insensitive literal pattern (given in lowercase) from the
front of a character list, returning the remainder. -/
def ciStrip : List Char → List Char → Option (List Char)
  | [], cs => some cs
  | _ :: _, [] => none
  | p :: ps, c :: cs => if pyLowerChar c = p then ciStrip ps cs else none

/-- Regex `\b` right after a word character: holds iff the remainder is empty
or starts with a non-word character. -/
def boundaryOk (cs : List Char) : Bool :=
  match cs with
  | [] => true
  | c :: _ => !isWordChar c

/-- The character class `[IVXLC\d]` under `re.IGNORECASE`. -/
def sectionClassCh (c : Char) : Bool :=
  let l := pyLowerChar c
  l = 'i' || l = 'v' || l = 'x' || l = 'l' || l = 'c' || c.isDigit

/-- Matcher for `^KW\s+([IVXLC\d]+)\b` (IGNORECASE), the shared shape of
`_RE_SECTION` and `_RE_CHAPTER`; returns group 2. -/
def matchSecLike (kw : List Char) (ln : String) : Option String :=
  match ciStrip kw ln.data with
  | none => none
  | some rest =>
    match rest with
    | [] => none
    | r0 :: _ =>
      if !isPySpace r0 then none
      else
        let body := rest.dropWhile isPySpace
        let run := body.takeWhile sectionClassCh
        if run.isEmpty then none
        else if boundaryOk (body.drop run.length) then some (String.mk run)
        else none

/-- `_RE_SECTION = ^(Розділ|Раздел)\s+([IVXLC\d]+)\b` (IGNORECASE). -/
def matchSection (ln : String) : Option String :=
  match matchSecLike "розділ".data ln with
  | some r => some r
  | none => matchSecLike "раздел".data ln

/-- `_RE_CHAPTER = ^(Глава|ГЛАВА|Глава)\s+([IVXLC\d]+)\b` (IGNORECASE). -/
def matchChapter (ln : String) : Option String :=
  matchSecLike "глава".data ln

/-- One keyword alternative of `_RE_ARTICLE`:
`^KW\s+([0-9]+(?:[-–][0-9]+)?(?:[¹²³⁴⁵⁶⁷⁸⁹])?)\b(?:\.\s*(.*))?$` (IGNORECASE).
Returns `(group 2, group 3)`.  Group 2 is a number, an optional `[-–]` second
number, and an optional single superscript digit; the trailing
`\b(?:\.\s*(.*))?$` leaves exactly two ways to finish: end of line
(group 3 = `none`) or `.` `\s*` with the rest of the line as group 3.
Committing greedily to each non-empty optional group is exact: if the regex
had to backtrack out of one, the abandoned shorter group 2 would be followed
by a word character (a digit after `[-–]`, or a superscript digit, both in
Python's Unicode `\w`), so `\b` would fail and the line not match at all. -/
def matchArtKw (kw : List Char) (ln : String) : Option (String × Option String) :=
  match ciStrip kw ln.data with
  | none => none
  | some rest =>
    match rest with
    | [] => none
    | r0 :: _ =>
      if !isPySpace r0 then none
      else
        let body := rest.dropWhile isPySpace
        let d1 := body.takeWhile Char.isDigit
        if d1.isEmpty then none
        else
          let after1 := body.drop d1.length
          let numRest : List Char × List Char :=
            match after1 with
            | c :: cs =>
              if c = '-' || c = '–' then
                let d2 := cs.takeWhile Char.isDigit
                if d2.isEmpty then (d1, after1)
                else (d1 ++ c :: d2, cs.drop d2.length)
              else (d1, after1)
            | [] => (d1, after1)
          let withSup : List Char × List Char :=
            match numRest.2 with
            | s :: cs2 => if isSupDigit s then (numRest.1 ++ [s], cs2) else numRest
            | [] => numRest
          match withSup.2 with
          | [] => some (String.mk withSup.1, none)
          | '.' :: r => some (String.mk withSup.1, some (String.mk (r.dropWhile isPySpace)))
          | _ => none

/-- `_RE_ARTICLE` with its `(Стаття|Статья)` alternation. -/
def matchArticle (ln : String) : Option (String × Option String) :=
  match matchArtKw "стаття".data ln with
  | some r => some r
  | none => matchArtKw "статья".data ln

/-- `_RE_POINT_WORD = ^(Пункт)\s+([0-9]+(?:[-–][0-9]+)?)\b` (IGNORECASE).
No `$` anchor: anything may follow the boundary.  When taking the optional
`[-–][0-9]+` group breaks the final `\b`, the regex backtracks to the plain
number (whose boundary with the following `-`/`–` always holds). -/
def matchPointWord (ln : String) : Option String :=
  match ciStrip "пункт".data ln.data with
  | none => none
  | some rest =>
    match rest with
    | [] => none
    | r0 :: _ =>
      if !isPySpace r0 then none
      else
        let body := rest.dropWhile isPySpace
        let d1 := body.takeWhile Char.isDigit
        if d1.isEmpty then none
        else
          let after1 := body.drop d1.length
          match after1 with
          | c :: cs =>
            if c = '-' || c = '–' then
              let d2 := cs.takeWhile Char.isDigit
              if !d2.isEmpty && boundaryOk (cs.drop d2.length) then
                some (String.mk (d1 ++ c :: d2))
              else if boundaryOk after1 then some (String.mk d1)
              else none
            else if boundaryOk after1 then some (String.mk d1)
            else none
          | [] => some (String.mk d1)

/-- `_RE_POINT_NUM = ^([0-9]{1,3})\.\s+\S`. -/
def matchPointNum (ln : String) : Option String :=
  let d := ln.data.takeWhile Char.isDigit
  if d.isEmpty || 3 < d.length then none
  else
    match ln.data.drop d.length with
    | '.' :: r =>
      match r with
      | [] => none
      | c :: _ =>
        if !isPySpace c then none
        else if (r.dropWhile isPySpace).isEmpty then none
        else some (String.mk d)
    | _ => none

/-- `ingest._is_upper_title`.  The float ratio test `> 0.9` is the exact
rational comparison `10 * upper > 9 * letters`. -/
def is_upper_title (ln : String) : Bool :=
  if ln.length < 5 then false
  else
    let letters := ln.data.filter isPyAlpha
    if letters.isEmpty then false
    else
      let ups := (letters.filter (fun c => c = pyUpperChar c)).length
      9 * letters.length < 10 * ups

/-! ## src/shared/ingest.py — segment_legal_text -/

/-- `ingest.Segment`. -/
structure Segment where
  text : String
  path : Option String
  heading : Option String
  unit_type : Option String
  unit_id : Option String
  part : Nat
deriving DecidableEq, Repr

/-- Python truthiness of an `Optional[str]`. -/
def optTruthy : Option String → Bool
  | none => false
  | some s => s ≠ ""

/-- Mutable scan state of `segment_legal_text`'s line loop. -/
structure ScanSt where
  segments : List Segment
  sectionId : Option String
  sectionTitle : Option String
  chapterId : Option String
  chapterTitle : Option String
  haveSeenUnit : Bool
  prefaceLines : List String
  pendingBetween : List String
  curUnitType : Option String
  curUnitId : Option String
  curHeading : Option String
  curLines : Option (List String)
  prevWasSection : Bool
  prevWasChapter : Bool
deriving Repr

def initScan : ScanSt :=
  { segments := [], sectionId := none, sectionTitle := none, chapterId := none
  , chapterTitle := none, haveSeenUnit := false, prefaceLines := []
  , pendingBetween := [], curUnitType := none, curUnitId := none
  , curHeading := none, curLines := none, prevWasSection := false
  , prevWasChapter := false }

/-- The `cur_path()` closure. -/
def curPathOf (st : ScanSt) : Option String :=
  let parts : List String :=
    (if optTruthy st.sectionId then
      [match st.sectionTitle with
       | some t => if t ≠ "" then "Розділ " ++ st.sectionId.getD "" ++ " (" ++ t ++ ")"
                   else "Розділ " ++ st.sectionId.getD ""
       | none => "Розділ " ++ st.sectionId.getD ""]
     else []) ++
    (if optTruthy st.chapterId then
      [match st.chapterTitle with
       | some t => if t ≠ "" then "Глава " ++ st.chapterId.getD "" ++ " (" ++ t ++ ")"
                   else "Глава " ++ st.chapterId.getD ""
       | none => "Глава " ++ st.chapterId.getD ""]
     else []) ++
    (if st.curUnitType = some "article" && optTruthy st.curUnitId then
      ["Стаття " ++ st.curUnitId.getD ""] else []) ++
    (if st.curUnitType = some "point" && optTruthy st.curUnitId then
      ["Пункт " ++ st.curUnitId.getD ""] else [])
  if parts.isEmpty then none else some (String.intercalate " / " parts)

/-- The `flush_current()` closure: emit the current unit as a `Segment` when
`cur_lines` is truthy (non-`None` and non-empty), then reset the unit fields. -/
def flushCurrent (st : ScanSt) : ScanSt :=
  let st1 :=
    match st.curLines with
    | some ls =>
      if ls.isEmpty then st
      else
        { st with segments := st.segments ++
            [({ text := normalize_text (String.intercalate "\n" ls),
                path := curPathOf st,
                heading := st.curHeading,
                unit_type := st.curUnitType,
                unit_id := st.curUnitId,
                part := 0 } : Segment)] }
    | none => st
  { st1 with curLines := none, curUnitType := none, curUnitId := none
           , curHeading := none }

/-- Route a buffered line into `preface_lines` (before the first unit) or
`pending_between` (between units). -/
def bufferLine (st : ScanSt) (ln : String) : ScanSt :=
  if !st.haveSeenUnit then { st with prefaceLines := st.prefaceLines ++ [ln] }
  else { st with pendingBetween := st.pendingBetween ++ [ln] }

/-- Flush the preamble when the first structural unit starts. -/
def markFirstUnit (st : ScanSt) : ScanSt :=
  if !st.haveSeenUnit then
    let st := { st with haveSeenUnit := true }
    if !st.prefaceLines.isEmpty then
      let pre : Segment :=
        { text := normalize_text (String.intercalate "\n" st.prefaceLines),
          path := none, heading := none, unit_type := some "preamble",
          unit_id := some "0", part := 0 }
      { st with segments := st.segments ++ [pre], prefaceLines := [] }
    else st
  else st

/-- Open a new unit: close the previous one, set the unit fields, and seed
`cur_lines` with any pending buffered lines plus the start line itself. -/
def startUnit (st : ScanSt) (utype uid heading ln : String) : ScanSt :=
  let st := markFirstUnit st
  let st := if st.curLines.isSome then flushCurrent st else st
  { st with curUnitType := some utype, curUnitId := some uid
          , curHeading := some heading
          , curLines := some (st.pendingBetween ++ [ln])
          , pendingBetween := [] }

/-- One iteration of the `for ln in lines` loop of `segment_legal_text`. -/
def scanLine (mode : String) (st : ScanSt) (ln : String) : ScanSt :=
  match matchSection ln with
  | some sid =>
    let st := if st.curLines.isSome then flushCurrent st else st
    let st := { st with sectionId := some (normalize_text sid)
                      , sectionTitle := none
                      , prevWasSection := true, prevWasChapter := false }
    bufferLine st ln
  | none =>
  match matchChapter ln with
  | some cid =>
    let st := if st.curLines.isSome then flushCurrent st else st
    let st := { st with chapterId := some (normalize_text cid)
                      , chapterTitle := none
                      , prevWasSection := false, prevWasChapter := true }
    bufferLine st ln
  | none =>
  if st.prevWasSection && is_upper_title ln then
    bufferLine { st with sectionTitle := some ln, prevWasSection := false } ln
  else if st.prevWasChapter && is_upper_title ln then
    bufferLine { st with chapterTitle := some ln, prevWasChapter := false } ln
  else
    let st := { st with prevWasSection := false, prevWasChapter := false }
    if mode = "article" && (matchArticle ln).isSome then
      match matchArticle ln with
      | some (num, title3) =>
        let uid := normalize_text (num)
        let titlePart := pyStrip (title3.getD "")
        let heading := normalize_text
          ("Стаття " ++ uid ++ (if titlePart ≠ "" then ". " ++ titlePart else ""))
        startUnit st "article" uid heading ln
      | none => st
    else
      let mpw := matchPointWord ln
      let mpn := matchPointNum ln
      if (mode = "point" || mode = "plain") &&
         (mpw.isSome || (mpn.isSome && mode = "point")) then
        let uid := normalize_text
          (match mpw with
           | some n => n
           | none => mpn.getD "")
        startUnit st "point" uid (normalize_text ("Пункт " ++ uid)) ln
      else
        if !st.haveSeenUnit then
          { st with prefaceLines := st.prefaceLines ++ [ln] }
        else
          match st.curLines with
          | none => { st with pendingBetween := st.pendingBetween ++ [ln] }
          | some ls => { st with curLines := some (ls ++ [ln]) }

/-- Line-break characters of Python `str.splitlines` (CR cannot occur here:
`segment_legal_text` normalizes its input first, which removes every CR). -/
def isLineBreakCh (c : Char) : Bool :=
  c = '\n' || c = '\r' || c = '\x0b' || c = '\x0c' || c = '\x1c' ||
  c = '\x1d' || c = '\x1e' || c = '\u0085' || c = ' ' || c = ' '

/-- Python `str.splitlines` (no trailing empty piece when the string ends in
a line break). -/
def splitLinesAux : List Char → List Char → List String
  | [], acc => if acc.isEmpty then [] else [String.mk acc.reverse]
  | c :: rest, acc =>
    if isLineBreakCh c then String.mk acc.reverse :: splitLinesAux rest []
    else splitLinesAux rest (c :: acc)

def splitPyLines (s : String) : List String := splitLinesAux s.data []

/-- Mode selection heuristic of `segment_legal_text` (the `prefer_mode`
override and the article/point line counts). -/
def selectMode (preferMode : Option String) (lines : List String) : String :=
  match preferMode with
  | some m => m
  | none =>
    let artHits := (lines.filter (fun ln => (matchArticle ln).isSome)).length
    if 2 ≤ artHits then "article"
    else
      let pHits := (lines.filter (fun ln =>
        (matchPointWord ln).isSome || (matchPointNum ln).isSome)).length
      if 3 ≤ pHits then "point" else "plain"

/-- The stripped non-empty lines `segment_legal_text` iterates over. -/
def segLines (text : String) : List String :=
  ((splitPyLines text).map pyStrip).filter (fun ln => ln ≠ "")

/-- The line scan plus the post-loop flushes of `segment_legal_text`
(current unit, whole-document `chunk` fallback, trailing `tail` segment). -/
def segmentScan (mode : String) (lines : List String) : List Segment :=
  let st := lines.foldl (scanLine mode) initScan
  let st := if st.curLines.isSome then flushCurrent st else st
  let segs : List Segment :=
    if !st.prefaceLines.isEmpty && st.segments.isEmpty then
      [{ text := normalize_text (String.intercalate "\n" st.prefaceLines),
         path := none, heading := none, unit_type := some "chunk",
         unit_id := some "0", part := 0 }]
    else st.segments
  if !st.pendingBetween.isEmpty then
    segs ++
      [{ text := normalize_text (String.intercalate "\n" st.pendingBetween),
         path := none, heading := none, unit_type := some "tail",
         unit_id := some "0", part := 0 }]
  else segs

/-- The oversize post-pass of `segment_legal_text`: any segment longer than
twice the configured chunk size is split by `chunk_text` into `part`-indexed
segments sharing the parent's identifiers. -/
def postPass (segs : List Segment) : List Segment :=
  (segs.map (fun seg =>
    if seg.text.length ≤ chunk_size_chars * 2 then [seg]
    else
      ((chunk_text seg.text chunk_size_chars chunk_overlap_chars).enum.map
        (fun pi => { seg with text := pi.2, part := pi.1 })))).flatten

/-- `ingest.segment_legal_text`. -/
def segment_legal_text (text : String) (preferMode : Option String) : List Segment :=
  let t := normalize_text text
  if t = "" then []
  else
    let lines := segLines t
    let mode := selectMode preferMode lines
    postPass (segmentScan mode lines)

/-! ## src/shared/ingest.py — IngestionStore (`_upsert_source`,
`_store_document_and_chunks`)

The relational store is modelled as in-memory row lists; SQLAlchemy's
row-id generator is a `nextId` counter and `_utcnow()` is a `now` clock. -/

structure SourceRow where
  id : Nat
  url : String
  kind : String
  title : Option String
  is_active : Bool
deriving DecidableEq, Repr

structure DocRow where
  id : Nat
  source_id : Nat
  url : String
  title : Option String
  content_text : String
  content_hash : String
  fetched_at : Nat
  meta_json : List (String × String)
deriving DecidableEq, Repr

structure ChunkRow where
  id : Nat
  document_id : Nat
  idx : Nat
  path : Option String
  heading : Option String
  unit_type : Option String
  unit_id : Option String
  part : Nat
  text : String
  token_count : Nat
  embedding : Option (List ℚ)
deriving DecidableEq, Repr

structure IngestSt where
  sources : List SourceRow
  documents : List DocRow
  chunks : List ChunkRow
  nextId : Nat
  now : Nat
deriving DecidableEq, Repr

structure IngestResult where
  source_id : Nat
  document_id : Nat
  chunks_upserted : Nat
  changed : Bool
deriving DecidableEq, Repr

/-- `ingest._upsert_source`.  `select(Source).where(Source.url == url)` with the
unique-url constraint is `find?`; on reuse, `kind` is assigned whenever the new
kind is truthy and differs, `title` only when the new title is truthy and the
stored one is falsy. -/
def upsert_source (st : IngestSt) (source_url : String) (kind : String)
    (title : Option String) : IngestSt × SourceRow :=
  match st.sources.find? (fun s => s.url = source_url) with
  | none =>
    let src : SourceRow :=
      { id := st.nextId, url := source_url, kind := kind, title := title
      , is_active := true }
    ({ st with sources := st.sources ++ [src], nextId := st.nextId + 1 }, src)
  | some src =>
    let src1 := if kind ≠ "" && src.kind ≠ kind then { src with kind := kind } else src
    let src2 :=
      if optTruthy title && !optTruthy src1.title then { src1 with title := title }
      else src1
    ({ st with sources :=
        st.sources.map (fun s => if s.id = src.id then src2 else s) }, src2)

/-- `select(Document).where(source_id == …).order_by(fetched_at.desc()).limit(1)`:
the stored document of the source with the greatest `fetched_at`. -/
def lastDocFor (docs : List DocRow) (sid : Nat) : Option DocRow :=
  (docs.filter (fun d => d.source_id = sid)).foldl
    (fun acc d =>
      match acc with
      | none => some d
      | some b => if b.fetched_at < d.fetched_at then some d else acc)
    none

/-- The changed-content branch of `_store_document_and_chunks`: create the
Document and its Chunk rows.  `embedTexts` models `llm.embed_texts` —
`some vectors` on success, `none` when the call raised (the `except` branch
stores `None` for every chunk). -/
def storeNewDocument (embedTexts : List String → Option (List (List ℚ)))
    (st : IngestSt) (src : SourceRow) (doc_url : String) (title : Option String)
    (content : String) (content_hash : String) (meta : List (String × String))
    (segments : List Segment) : IngestSt × IngestResult :=
  let doc : DocRow :=
    { id := st.nextId, source_id := src.id, url := doc_url
    , title := if optTruthy title then title else src.title
    , content_text := content, content_hash := content_hash
    , fetched_at := st.now, meta_json := meta }
  let segments2 :=
    if segments.isEmpty then
      [({ text := content, path := none, heading := none
        , unit_type := some "chunk", unit_id := some "0", part := 0 } : Segment)]
    else segments
  let chunk_texts := segments2.map (fun s => s.text)
  let embeddings : List (Option (List ℚ)) :=
    match embedTexts chunk_texts with
    | some vs => vs.map some
    | none => List.replicate segments2.length none
  let newChunks := segments2.enum.map (fun p =>
    ({ id := st.nextId + 1 + p.1, document_id := doc.id, idx := p.1
     , path := p.2.path, heading := p.2.heading, unit_type := p.2.unit_type
     , unit_id := p.2.unit_id, part := p.2.part, text := p.2.text
     , token_count := estimate_tokens p.2.text
     , embedding := embeddings.getD p.1 none } : ChunkRow))
  ({ st with documents := st.documents ++ [doc]
           , chunks := st.chunks ++ newChunks
           , nextId := st.nextId + 1 + newChunks.length },
   { source_id := src.id, document_id := doc.id
   , chunks_upserted := newChunks.length, changed := true })

/-- `ingest._store_document_and_chunks`.  `sha` models `utils.sha256_hex`
(opaque digest). -/
def store_document_and_chunks (sha : String → String)
    (embedTexts : List String → Option (List (List ℚ)))
    (st : IngestSt) (src : SourceRow) (doc_url : String) (title : Option String)
    (content_text : String) (meta : List (String × String))
    (segments : List Segment) : Except String (IngestSt × IngestResult) :=
  let content := normalize_text content_text
  if content = "" || content.length < 80 then
    .error "Empty/too short text extracted."
  else
    let content_hash := sha content
    match lastDocFor st.documents src.id with
    | some last_doc =>
      if last_doc.content_hash = content_hash then
        .ok ({ st with documents := st.documents.map (fun d =>
                if d.id = last_doc.id then { d with fetched_at := st.now } else d) },
             { source_id := src.id, document_id := last_doc.id
             , chunks_upserted := 0, changed := false })
      else
        .ok (storeNewDocument embedTexts st src doc_url title content
              content_hash meta segments)
    | none =>
      .ok (storeNewDocument embedTexts st src doc_url title content
            content_hash meta segments)

/-- Number of Chunk rows stored for a Source (through its Documents). -/
def chunkCountForSource (st : IngestSt) (sid : Nat) : Nat :=
  (st.chunks.filter (fun c =>
    ((st.documents.filter (fun d => d.source_id = sid)).map (fun d => d.id)).contains
      c.document_id)).length

/-! ## src/shared/retrieval.py — retrieve

The two SQL queries are modelled by their result rows: `raw` is the reported
`cosine_distance` for the vector branch and the `ts_rank_cd` rank for the
lexical branch.  The query embedding call is modelled by whether it succeeded
(`qvecPresent`); on failure the vector branch is skipped. -/

structure RetrievedChunk where
  chunk_id : Nat
  document_id : Nat
  title : Option String
  url : Option String
  path : Option String
  heading : Option String
  unit_type : Option String
  unit_id : Option String
  text : String
  score : ℚ
deriving DecidableEq, Repr

structure CandRow where
  chunk_id : Nat
  document_id : Nat
  text : String
  path : Option String
  heading : Option String
  unit_type : Option String
  unit_id : Option String
  raw : ℚ
  doc_title : Option String
  doc_url : Option String
deriving DecidableEq, Repr

def rowToHit (r : CandRow) (score : ℚ) : RetrievedChunk :=
  { chunk_id := r.chunk_id, document_id := r.document_id, title := r.doc_title
  , url := r.doc_url, path := r.path, heading := r.heading
  , unit_type := r.unit_type, unit_id := r.unit_id, text := r.text
  , score := score }

/-- `candidates[cid] = …` guarded by `existing is None or score > existing.score`
on a Python dict: replacing keeps the key's insertion position, a new key is
appended. -/
def updCand : List (Nat × RetrievedChunk) → Nat → RetrievedChunk →
    List (Nat × RetrievedChunk)
  | [], cid, rc => [(cid, rc)]
  | (k, v) :: rest, cid, rc =>
    if k = cid then
      if v.score < rc.score then (k, rc) :: rest else (k, v) :: rest
    else (k, v) :: updCand rest cid rc

/-- Vector-branch row: `score = 1.0 - dist`. -/
def applyVecRow (m : List (Nat × RetrievedChunk)) (r : CandRow) :
    List (Nat × RetrievedChunk) :=
  updCand m r.chunk_id (rowToHit r (1 - r.raw))

/-- Lexical-branch row: `score = float(rank)`. -/
def applyFtsRow (m : List (Nat × RetrievedChunk)) (r : CandRow) :
    List (Nat × RetrievedChunk) :=
  updCand m r.chunk_id (rowToHit r r.raw)

def mergeCandidates (qvecPresent : Bool) (vecRows ftsRows : List CandRow) :
    List (Nat × RetrievedChunk) :=
  ftsRows.foldl applyFtsRow
    (if qvecPresent then vecRows.foldl applyVecRow [] else [])

/-- The fused score the candidate dict holds for a chunk id (`None` when the
chunk is absent). -/
def scoreAt (m : List (Nat × RetrievedChunk)) (cid : Nat) : Option ℚ :=
  (m.find? (fun p => p.1 = cid)).map (fun p => p.2.score)

/-- Folding one more candidate score into an optional previous score, the way
`existing is None or score > existing.score` does. -/
def mergeMax : Option ℚ → ℚ → Option ℚ
  | none, s => some s
  | some t, s => some (if t < s then s else t)

/-- Stable insertion into a descending-by-score list (Python `sorted` with
`reverse=True` is stable). -/
def insertDesc (x : RetrievedChunk) : List RetrievedChunk → List RetrievedChunk
  | [] => [x]
  | y :: ys => if y.score ≤ x.score then x :: y :: ys else y :: insertDesc x ys

def sortDesc (l : List RetrievedChunk) : List RetrievedChunk :=
  l.foldr insertDesc []

/-- `retrieval.retrieve` downstream of the two queries: merge with max-fusion,
sort by fused score descending, take `k`, truncate each text to a 900-char
preview. -/
def retrieve (qvecPresent : Bool) (vecRows ftsRows : List CandRow) (k : Nat) :
    List RetrievedChunk :=
  let ranked :=
    (sortDesc ((mergeCandidates qvecPresent vecRows ftsRows).map Prod.snd)).take k
  ranked.map (fun r => { r with text := compact_quote r.text 900 })

/-! ## src/worker/tasks.py — deduplication and answer_question

`_deduplicate_hits` accepts arbitrary hit objects via `getattr`, so ids are
optional here; a missing attribute or `None` stringifies to `""`.  `sha1`
models `hashlib.sha1(...).hexdigest()` (opaque digest). -/

structure Hit where
  document_id : Option Nat
  chunk_id : Option Nat
  title : Option String
  url : Option String
  path : Option String
  heading : Option String
  unit_type : Option String
  unit_id : Option String
  text : String
  score : ℚ
deriving DecidableEq, Repr

/-- Python `str.lower()` on the modelled alphabets. -/
def pyLower (s : String) : String := String.mk (s.data.map pyLowerChar)

/-- `tasks._dedup_key`. -/
def dedup_key (sha1 : String → String) (h : Hit) : String × String :=
  let doc_id := match h.document_id with | some i => toString i | none => ""
  let chunk_id := match h.chunk_id with | some i => toString i | none => ""
  if doc_id ≠ "" && chunk_id ≠ "" then
    ("id", doc_id ++ ":" ++ chunk_id)
  else
    let url := pyLower (pyStrip (h.url.getD ""))
    let loc0 := match h.heading with
      | some s => if s ≠ "" then s else (h.path.getD "")
      | none => h.path.getD ""
    let loc := pyLower (pyStrip loc0)
    if url ≠ "" || loc ≠ "" then
      ("url_loc", url ++ "|" ++ loc)
    else
      ("text", sha1 (pyLower (pyStrip h.text)))

/-- One step of `_deduplicate_hits`: Python's `best_by_key` dict plus the
`order` list of first-seen keys are together an insertion-ordered association
list — a new key is appended, a better-scoring hit replaces in place
(strictly greater: `new_score > prev_score`). -/
def dedupIns : List ((String × String) × Hit) → (String × String) → Hit →
    List ((String × String) × Hit)
  | [], k, h => [(k, h)]
  | (k0, h0) :: rest, k, h =>
    if k0 = k then
      if h0.score < h.score then (k0, h) :: rest else (k0, h0) :: rest
    else (k0, h0) :: dedupIns rest k h

/-- `tasks._deduplicate_hits`. -/
def deduplicate_hits (sha1 : String → String) (hits : List Hit) : List Hit :=
  (hits.foldl (fun acc h => dedupIns acc (dedup_key sha1 h) h) []).map Prod.snd

/-- The dedup keys of a list in first-occurrence order (the `order` list that
`_deduplicate_hits` maintains). -/
def firstOccKeys {α : Type} [DecidableEq α] (l : List α) : List α :=
  l.foldl (fun acc k => if k ∈ acc then acc else acc ++ [k]) []

/-- `schemas.Citation` as serialized by `answer_question`. -/
structure Citation where
  n : Nat
  document_id : Option Nat
  chunk_id : Option Nat
  title : Option String
  url : Option String
  path : Option String
  heading : Option String
  unit_type : Option String
  unit_id : Option String
  quote : String
  score : ℚ
deriving DecidableEq, Repr

/-- `tasks._fmt_loc`. -/
def fmt_loc (path heading : Option String) : String :=
  let a := pyStrip (heading.getD "")
  let b := pyStrip (path.getD "")
  if a ≠ "" && b ≠ "" && a ≠ b then a ++ " (" ++ b ++ ")"
  else if a ≠ "" then a else b

/-- `quote=h.text[:320] + ("…" if len(h.text) > 320 else "")`. -/
def pyQuote (t : String) : String :=
  String.mk (t.data.take 320) ++ (if 320 < t.length then "…" else "")

/-- The `for i, h in enumerate(hits, start=1)` citation construction. -/
def mkCitations (i : Nat) : List Hit → List Citation
  | [] => []
  | h :: t =>
    ({ n := i, document_id := h.document_id, chunk_id := h.chunk_id
     , title := h.title, url := h.url, path := h.path, heading := h.heading
     , unit_type := h.unit_type, unit_id := h.unit_id
     , quote := pyQuote h.text, score := h.score } : Citation) :: mkCitations (i + 1) t

/-- Scan for the non-overlapping matches of `_CIT_RE = \[(\d{1,2})\]`,
returning the numeric value of each match in order (two digits are preferred,
then one, as the greedy `\d{1,2}` does; a failed match resumes one character
further). -/
def citMarkers : List Char → List Nat
  | '[' :: c1 :: c2 :: c3 :: rest3 =>
    if c1.isDigit && c2.isDigit && c3 = ']' then
      (10 * (c1.toNat - 48) + (c2.toNat - 48)) :: citMarkers rest3
    else if c1.isDigit && c2 = ']' then
      (c1.toNat - 48) :: citMarkers (c3 :: rest3)
    else citMarkers (c1 :: c2 :: c3 :: rest3)
  | '[' :: [c1, c2] =>
    if c1.isDigit && c2 = ']' then [c1.toNat - 48] else citMarkers [c1, c2]
  | '[' :: [_] => []
  | ['['] => []
  | _ :: rest => citMarkers rest
  | [] => []

/-- `tasks._extract_used_numbers`: marker values, first occurrence only. -/
def extract_used_numbers (answer : String) : List Nat :=
  (citMarkers answer.data).foldl
    (fun acc n => if n ∈ acc then acc else acc ++ [n]) []

/-- `tasks._filter_citations`. -/
def filter_citations (citations : List Citation) (used : List Nat) :
    List Citation :=
  if used.isEmpty then []
  else citations.filter (fun c => c.n ∈ used)

/-- A line matched by `_NEED_MORE_RE = (?im)^\s*need_more_info\s*=\s*(true|false)\s*$`,
parsed directly: optional whitespace, the literal (case-insensitively), `=`,
`true` or `false`, optional whitespace, end of line. -/
def isNeedMoreLine (ln : List Char) : Bool :=
  match ciStrip "need_more_info".data (ln.dropWhile isPySpace) with
  | none => false
  | some r1 =>
    match r1.dropWhile isPySpace with
    | '=' :: r3 =>
      let r4 := r3.dropWhile isPySpace
      match ciStrip "true".data r4 with
      | some r5 => (r5.dropWhile isPySpace).isEmpty
      | none =>
        match ciStrip "false".data r4 with
        | some r5 => (r5.dropWhile isPySpace).isEmpty
        | none => false
    | _ => false

/-- Python `text.split("\n")` on a character list (keeps empty pieces; the
empty string yields one empty piece). -/
def splitOnNl : List Char → List (List Char)
  | [] => [[]]
  | c :: rest =>
    if c = '\n' then [] :: splitOnNl rest
    else
      match splitOnNl rest with
      | [] => [[c]]
      | l :: ls => (c :: l) :: ls

/-- `"\n".join` of the pieces. -/
def joinNl : List (List Char) → List Char
  | [] => []
  | [l] => l
  | l :: ls => l ++ '\n' :: joinNl ls

/-- Python `sep.join(list)`. -/
def pyJoin (sep : String) : List String → String
  | [] => ""
  | [a] => a
  | a :: rest => a ++ sep ++ pyJoin sep rest

/-- `tasks._clean_service_markers`: `re.sub` erases each matching line's
content (the `\n` separators are untouched), then `strip()`. -/
def clean_service_markers (text : String) : String :=
  pyStrip (String.mk (joinNl ((splitOnNl text.data).map
    (fun ln => if isNeedMoreLine ln then [] else ln))))

/-- The structured completion result consumed by `answer_question`
(`citations_used` after its `str(x).isdigit()` filter keeps only the
non-negative integer entries). -/
structure LlmOut where
  answer_markdown : Option String
  citations_used : List Nat
deriving DecidableEq, Repr

structure TaskAnswer where
  answer : String
  citations : List Citation
deriving DecidableEq, Repr

/-- The no-relevant-sources fallback text of `answer_question`. -/
def noSourcesAnswer : String :=
  "Недостатньо релевантних джерел у базі для надійної консультації. " ++
  "Будь ласка, додайте профільний НПА/роз'яснення за темою " ++
  "(посилання на zakon.rada.gov.ua, kmu.gov.ua, nbu.gov.ua тощо)."

/-- The degraded answer built when the completion produced no text: the
header plus `[n] quote` previews of the first three citations with a
non-empty quote. -/
def mkFallbackAnswer (citations : List Citation) : String :=
  let preview := ((citations.take 3).filter (fun c => c.quote ≠ "")).map
    (fun c => "[" ++ toString c.n ++ "] " ++ c.quote)
  pyStrip ("Не вдалося сформувати відповідь через LLM. " ++
    "Нижче — релевантні фрагменти для консультації:\n\n" ++
    pyJoin "\n\n" preview)

/-- The unstripped fallback-answer body (header plus joined previews); with
the previews inlined, `mkFallbackAnswer cs = pyStrip (fallbackBody previews)`
definitionally. -/
def fallbackBody (preview : List String) : String :=
  "Не вдалося сформувати відповідь через LLM. " ++
  "Нижче — релевантні фрагменти для консультації:\n\n" ++
  pyJoin "\n\n" preview

/-- A concrete retrieved hit used to exercise the completion-failure path. -/
def hitC4 : Hit :=
  { document_id := some 1, chunk_id := some 1, title := some "Закон"
  , url := some "https://zakon.rada.gov.ua/laws/show/1", path := none
  , heading := none, unit_type := some "article", unit_id := some "1"
  , text := "Текст_норми_один", score := 9/10 }

/-- One `[n] title / location / url / excerpt` context block. -/
def contextBlock (i : Nat) (h : Hit) : String :=
  let loc := fmt_loc h.path h.heading
  let locLine := if loc ≠ "" then "\nЛокація: " ++ loc else ""
  "[" ++ toString i ++ "] " ++ (if optTruthy h.title then h.title.getD "" else "Документ") ++
    locLine ++ "\nURL: " ++ h.url.getD "" ++ "\nФрагмент:\n" ++ h.text

/-- One `[n] = url or title (location)` citation hint line. -/
def citationHintLine (i : Nat) (h : Hit) : String :=
  let loc := fmt_loc h.path h.heading
  let src := if optTruthy h.url then h.url.getD ""
             else if optTruthy h.title then h.title.getD "" else "source"
  "[" ++ toString i ++ "] = " ++ src ++ (if loc ≠ "" then " (" ++ loc ++ ")" else "")

/-- `tasks.answer_question` downstream of retrieval: dedupe, number the hits,
invoke the completion (modelled by its outcome `llm`; `none` means the call
raised after its retries), fall back to the excerpt preview when no answer
text was produced, strip service markers, extract `[n]` markers when the
model reported no used citations, and filter the citations to the used set. -/
def answerCore (sha1 : String → String) (hits0 : List Hit)
    (llm : Option LlmOut) : TaskAnswer :=
  let hits := deduplicate_hits sha1 hits0
  if hits.isEmpty then
    { answer := noSourcesAnswer, citations := [] }
  else
    let citations := mkCitations 1 hits
    let llmAnswer := match llm with
      | some out => pyStrip (out.answer_markdown.getD "")
      | none => ""
    let used0 : List Nat := match llm with
      | some out => out.citations_used
      | none => []
    let answer1 := if llmAnswer = "" then mkFallbackAnswer citations else llmAnswer
    let answer2 := clean_service_markers answer1
    let used1 := if used0.isEmpty then extract_used_numbers answer2 else used0
    { answer := answer2, citations := filter_citations citations used1 }

/-! ## src/shared/ingest.py — fetch_url retry policy

`fetch_url` is decorated with `tenacity.retry(reraise=True,
stop=stop_after_attempt(3), wait=wait_exponential(multiplier=1, min=1, max=10),
retry=retry_if_exception_type((requests.RequestException,)))`.  One attempt is
`requests.get` followed by `raise_for_status()`; both `ConnectionError`\/
`Timeout` and the `HTTPError` raised by `raise_for_status` on a 4xx/5xx status
are subclasses of `requests.RequestException`. -/

structure HttpResponse where
  status : Nat
  content : String
  contentType : String
  url : String
deriving DecidableEq, Repr

inductive FetchErr where
  /-- `requests.HTTPError` from `raise_for_status` (subclass of `RequestException`). -/
  | httpError (status : Nat)
  /-- any other `requests.RequestException` (connection error, timeout, …). -/
  | connError
  /-- an exception that is not a `requests.RequestException`. -/
  | otherError
deriving DecidableEq, Repr

/-- `retry_if_exception_type((requests.RequestException,))`. -/
def isRequestException : FetchErr → Bool
  | .httpError _ => true
  | .connError => true
  | .otherError => false

/-- What the network does on the n-th attempt. -/
inductive FetchOutcome where
  | resp (r : HttpResponse)
  | raise (e : FetchErr)
deriving DecidableEq, Repr

/-- One attempt of the `fetch_url` body: `requests.get` then
`raise_for_status()` (which raises `HTTPError` for status 400–599). -/
def fetchAttempt (net : Nat → FetchOutcome) (n : Nat) : Except FetchErr HttpResponse :=
  match net n with
  | .raise e => .error e
  | .resp r =>
    if 400 ≤ r.status && r.status < 600 then .error (.httpError r.status)
    else .ok r

/-- `fetch_url` under its tenacity decorator, unrolled for
`stop_after_attempt(3)`: a failed attempt is retried only while the exception
is a `RequestException` and fewer than 3 attempts were made; `reraise=True`
re-raises the last exception.  Returns the result and the number of attempts
made. -/
def fetch_url (net : Nat → FetchOutcome) : Except FetchErr HttpResponse × Nat :=
  match fetchAttempt net 1 with
  | .ok r => (.ok r, 1)
  | .error e1 =>
    if isRequestException e1 then
      match fetchAttempt net 2 with
      | .ok r => (.ok r, 2)
      | .error e2 =>
        if isRequestException e2 then
          (fetchAttempt net 3, 3)
        else (.error e2, 2)
    else (.error e1, 1)

/-- Modelled from the spec: the `wait_exponential(multiplier=1, min=1, max=10)`
policy (the tenacity library itself is not part of this repository) — an
exponentially growing wait, clamped to the configured base 1s and cap 10s,
before retry number `n`. -/
def fetchWaitBefore (n : Nat) : ℚ := max 1 (min 10 ((2 : ℚ) ^ n))

/-! ## Claim theorems -/

theorem docIds_map_touch (docs : List DocRow) (did now sid : Nat) :
    ((docs.map (fun x => if x.id = did then { x with fetched_at := now } else x)).filter
      (fun d => d.source_id = sid)).map (fun d => d.id) =
    (docs.filter (fun d => d.source_id = sid)).map (fun d => d.id) := by
  induction docs with
  | nil => simp
  | cons d rest ih =>
    by_cases h : d.id = did <;> by_cases h2 : d.source_id = sid <;>
      simp [h, h2, ih]

/-- C1: when the most recent Document of the Source carries exactly the
SHA-256 digest of the newly extracted normalized text,
`_store_document_and_chunks` refreshes that Document's `fetched_at` and
returns `changed = false`, `chunksUpserted = 0`, writing no new Document or
Chunk row, so the Chunk count of the Source does not grow. -/
theorem store_unchanged_content_is_idempotent
    (sha : String → String) (embed : List String → Option (List (List ℚ)))
    (st : IngestSt) (src : SourceRow) (doc_url : String) (title : Option String)
    (content_text : String) (meta : List (String × String))
    (segments : List Segment) (d : DocRow)
    (hlen : 80 ≤ (normalize_text content_text).length)
    (hlast : lastDocFor st.documents src.id = some d)
    (hhash : d.content_hash = sha (normalize_text content_text)) :
    store_document_and_chunks sha embed st src doc_url title content_text meta segments
      = .ok
        ({ st with documents := st.documents.map (fun x =>
            if x.id = d.id then { x with fetched_at := st.now } else x) },
         { source_id := src.id, document_id := d.id
         , chunks_upserted := 0, changed := false }) ∧
    (st.documents.map (fun x =>
        if x.id = d.id then { x with fetched_at := st.now } else x)).length
      = st.documents.length ∧
    chunkCountForSource
        { st with documents := st.documents.map (fun x =>
            if x.id = d.id then { x with fetched_at := st.now } else x) }
        src.id
      = chunkCountForSource st src.id := by
  have hne : ¬ (normalize_text content_text = "") := by
    intro h
    rw [h] at hlen
    simp at hlen
  have hlt : ¬ (normalize_text content_text).length < 80 := by omega
  refine ⟨?_, by simp, ?_⟩
  · simp only [store_document_and_chunks, hlast, hhash]
    simp [hne, hlt]
  · unfold chunkCountForSource
    simp only [docIds_map_touch]

/-- C1 witness: a concrete store in which re-ingesting the same content hits
the unchanged branch. -/
theorem store_unchanged_content_is_idempotent_witness :
    store_document_and_chunks (fun _ => "h") (fun _ => none)
      { sources := [{ id := 0, url := "https://x", kind := "url", title := none, is_active := true }]
      , documents := [{ id := 5, source_id := 0, url := "https://x", title := none
                      , content_text := "abcdefghijabcdefghijabcdefghijabcdefghijabcdefghijabcdefghijabcdefghijabcdefghij"
                      , content_hash := "h", fetched_at := 1, meta_json := [] }]
      , chunks := [], nextId := 6, now := 2 }
      { id := 0, url := "https://x", kind := "url", title := none, is_active := true }
      "https://x" none
      "abcdefghijabcdefghijabcdefghijabcdefghijabcdefghijabcdefghijabcdefghijabcdefghij"
      [] []
      = .ok
        ({ sources := [{ id := 0, url := "https://x", kind := "url", title := none, is_active := true }]
         , documents := [{ id := 5, source_id := 0, url := "https://x", title := none
                         , content_text := "abcdefghijabcdefghijabcdefghijabcdefghijabcdefghijabcdefghijabcdefghijabcdefghij"
                         , content_hash := "h", fetched_at := 2, meta_json := [] }]
         , chunks := [], nextId := 6, now := 2 },
         { source_id := 0, document_id := 5, chunks_upserted := 0, changed := false }) := by
  have h := store_unchanged_content_is_idempotent (fun _ => "h") (fun _ => none)
    { sources := [{ id := 0, url := "https://x", kind := "url", title := none, is_active := true }]
    , documents := [{ id := 5, source_id := 0, url := "https://x", title := none
                    , content_text := "abcdefghijabcdefghijabcdefghijabcdefghijabcdefghijabcdefghijabcdefghijabcdefghij"
                    , content_hash := "h", fetched_at := 1, meta_json := [] }]
    , chunks := [], nextId := 6, now := 2 }
    { id := 0, url := "https://x", kind := "url", title := none, is_active := true }
    "https://x" none
    "abcdefghijabcdefghijabcdefghijabcdefghijabcdefghijabcdefghijabcdefghijabcdefghij"
    [] []
    { id := 5, source_id := 0, url := "https://x", title := none
    , content_text := "abcdefghijabcdefghijabcdefghijabcdefghijabcdefghijabcdefghijabcdefghijabcdefghij"
    , content_hash := "h", fetched_at := 1, meta_json := [] }
    (by decide) (by decide) (by decide)
  rw [h.1]
  rfl

/-- C7 counterexample: a server that answers HTTP 404 on every attempt.  The
`HTTPError` raised by `raise_for_status` is a `requests.RequestException`, so
tenacity retries it: `fetch_url` makes all 3 attempts instead of failing
immediately after the first. -/
theorem fetch_url_retries_4xx_counterexample :
    fetch_url (fun _ => .resp { status := 404, content := "", contentType := "", url := "u" })
      = (.error (.httpError 404), 3) ∧
    (fetch_url (fun _ => .resp { status := 404, content := "", contentType := "", url := "u" })).2 ≠ 1 := by
  constructor
  · rfl
  · decide

/-- C7 (amended): `fetch_url` makes at most 3 attempts; every
`requests.RequestException` — including the `HTTPError` raised for a 4xx
response — is retried (a transient failure on the first attempt followed by a
success yields the success on attempt 2; three retryable failures exhaust the
retries and re-raise the last error); an exception outside
`RequestException` is not retried; and each backoff wait of the configured
`wait_exponential(multiplier=1, min=1, max=10)` policy lies between the 1s
base and the 10s cap. -/
theorem fetch_url_retry_policy (net : Nat → FetchOutcome)
    (e1 e2 e3 : FetchErr) (r : HttpResponse) (s : Nat) :
    (fetch_url net).2 ≤ 3 ∧
    (400 ≤ s → s < 600 → isRequestException (.httpError s) = true) ∧
    (fetchAttempt net 1 = .error e1 → isRequestException e1 = true →
      fetchAttempt net 2 = .ok r → fetch_url net = (.ok r, 2)) ∧
    (fetchAttempt net 1 = .error e1 → isRequestException e1 = true →
      fetchAttempt net 2 = .error e2 → isRequestException e2 = true →
      fetchAttempt net 3 = .error e3 → fetch_url net = (.error e3, 3)) ∧
    (fetchAttempt net 1 = .error e1 → isRequestException e1 = false →
      fetch_url net = (.error e1, 1)) ∧
    (1 ≤ fetchWaitBefore s ∧ fetchWaitBefore s ≤ 10) := by
  refine ⟨?_, fun _ _ => rfl, ?_, ?_, ?_, ?_, ?_⟩
  · unfold fetch_url
    rcases h1 : fetchAttempt net 1 with e | r1
    · by_cases hr : isRequestException e = true
      · rcases h2 : fetchAttempt net 2 with e2h | r2
        · by_cases hr2 : isRequestException e2h = true
          · simp [hr, hr2]
          · simp [hr, hr2]
        · simp [hr]
      · simp [hr]
    · simp
  · intro h1 hr h2
    unfold fetch_url
    simp [h1, hr, h2]
  · intro h1 hr h2 hr2 h3
    unfold fetch_url
    simp [h1, hr, h2, hr2, h3]
  · intro h1 hr
    unfold fetch_url
    simp [h1, hr]
  · unfold fetchWaitBefore
    exact le_max_left _ _
  · unfold fetchWaitBefore
    have h2 : (0 : ℚ) < 2 := by norm_num
    have := min_le_left (10 : ℚ) ((2 : ℚ) ^ s)
    have h10 : (1 : ℚ) ≤ 10 := by norm_num
    exact max_le h10 this

/-- C7 witness: the retry-then-succeed run (connection error on attempt 1,
HTTP 200 on attempt 2) and the wait-policy bounds at a concrete retry
number. -/
theorem fetch_url_retry_policy_witness :
    fetch_url (fun n => if n = 1 then .raise .connError
        else .resp { status := 200, content := "ok", contentType := "text/html", url := "u" })
      = (.ok { status := 200, content := "ok", contentType := "text/html", url := "u" }, 2) ∧
    (1 ≤ fetchWaitBefore 1 ∧ fetchWaitBefore 1 ≤ 10) := by
  have h := fetch_url_retry_policy
    (fun n => if n = 1 then .raise .connError
      else .resp { status := 200, content := "ok", contentType := "text/html", url := "u" })
    .connError .connError .connError
    { status := 200, content := "ok", contentType := "text/html", url := "u" } 1
  exact ⟨h.2.2.1 rfl rfl rfl, h.2.2.2.2.2⟩

/-- C8 counterexample: an existing Source whose `kind` is the non-default
`"kmu"` and whose `title` is already set; `_upsert_source` with a different
non-empty kind overwrites `kind` — it does not merely backfill an
empty/default value. -/
theorem upsert_source_overwrites_kind_counterexample :
    (upsert_source
      { sources := [{ id := 0, url := "https://x", kind := "kmu", title := some "T", is_active := true }]
      , documents := [], chunks := [], nextId := 1, now := 0 }
      "https://x" "zakon_rada" (some "U")).2.kind = "zakon_rada" ∧
    ("zakon_rada" : String) ≠ "kmu" := by
  constructor
  · rfl
  · decide

/-- C8 (amended): `upsertSource` creates a new Source on first use of a
canonical URL and otherwise reuses the existing row; on reuse it overwrites
`kind` whenever the provided kind is non-empty and differs from the stored
one, backfills `title` only if the stored title is empty, and the `url`,
`id` and `is_active` of the existing Source, all other Sources, and the
Document/Chunk tables remain unchanged. -/
theorem upsert_source_frame (st : IngestSt) (u kind : String)
    (title : Option String) (src : SourceRow) :
    (st.sources.find? (fun s => s.url = u) = none →
      upsert_source st u kind title =
        ({ st with
            sources := st.sources ++
              [{ id := st.nextId, url := u, kind := kind, title := title, is_active := true }]
          , nextId := st.nextId + 1 },
         { id := st.nextId, url := u, kind := kind, title := title, is_active := true })) ∧
    (st.sources.find? (fun s => s.url = u) = some src →
      (upsert_source st u kind title).2.url = src.url ∧
      (upsert_source st u kind title).2.id = src.id ∧
      (upsert_source st u kind title).2.is_active = src.is_active ∧
      (upsert_source st u kind title).2.kind =
        (if kind ≠ "" && src.kind ≠ kind then kind else src.kind) ∧
      (upsert_source st u kind title).2.title =
        (if optTruthy title && !optTruthy src.title then title else src.title) ∧
      (upsert_source st u kind title).1.sources =
        st.sources.map (fun s =>
          if s.id = src.id then (upsert_source st u kind title).2 else s) ∧
      (upsert_source st u kind title).1.sources.length = st.sources.length ∧
      (upsert_source st u kind title).1.documents = st.documents ∧
      (upsert_source st u kind title).1.chunks = st.chunks) := by
  constructor
  · intro hnone
    unfold upsert_source
    rw [hnone]
  · intro hsome
    unfold upsert_source
    rw [hsome]
    by_cases hk : kind = "" <;> by_cases hk2 : src.kind = kind <;>
      by_cases ht1 : optTruthy title = true <;>
        by_cases ht2 : optTruthy src.title = true <;>
          refine ⟨?_, ?_, ?_, ?_, ?_, ?_, by simp, rfl, rfl⟩ <;>
            simp [hk, hk2, ht1, ht2]

/-- C8 witness: a fresh URL creates the Source row, and the reuse frame at a
concrete store. -/
theorem upsert_source_frame_witness :
    (upsert_source
        { sources := [], documents := [], chunks := [], nextId := 0, now := 0 }
        "https://y" "url" none =
      ({ sources := [{ id := 0, url := "https://y", kind := "url", title := none, is_active := true }]
       , documents := [], chunks := [], nextId := 1, now := 0 },
       { id := 0, url := "https://y", kind := "url", title := none, is_active := true })) ∧
    (upsert_source
        { sources := [{ id := 0, url := "https://x", kind := "kmu", title := none, is_active := true }]
        , documents := [], chunks := [], nextId := 1, now := 0 }
        "https://x" "" (some "T")).2.url = "https://x" := by
  constructor
  · exact (upsert_source_frame
      { sources := [], documents := [], chunks := [], nextId := 0, now := 0 }
      "https://y" "url" none
      { id := 0, url := "", kind := "", title := none, is_active := true }).1 rfl
  · exact ((upsert_source_frame
      { sources := [{ id := 0, url := "https://x", kind := "kmu", title := none, is_active := true }]
      , documents := [], chunks := [], nextId := 1, now := 0 }
      "https://x" "" (some "T")
      { id := 0, url := "https://x", kind := "kmu", title := none, is_active := true }).2
      (by decide)).1

/-- Concrete statute-like text whose preamble precedes three article lines. -/
def txtWithPreamble : String :=
  "Преамбула тут\nСтаття 1. Перша\nтекст один\nСтаття 2. Друга\nтекст два\nСтаття 3. Назва\nтекст три"

/-- The same three article lines with no text before the first article. -/
def txtNoPreamble : String :=
  "Стаття 1. Перша\nтекст один\nСтаття 2. Друга\nСтаття 3. Назва"

/-- `_RE_ARTICLE` matches a superscripted article number (amended-statute
numbering): group 2 takes the `[¹²³⁴⁵⁶⁷⁸⁹]` alternative and such lines count
as article hits for mode selection; without the superscript alternative the
line cannot match, since `¹` is a word character and `\b` would fail. -/
theorem matchArticle_superscript_number :
    matchArticle "Стаття 5¹. Особливості" = some ("5¹", some "Особливості") ∧
    matchArticle "Стаття 5-6¹. Назва" = some ("5-6¹", some "Назва") ∧
    matchArticle "Стаття 5¹" = some ("5¹", none) ∧
    matchArticle "Стаття 5¹а" = none ∧
    matchPointWord "Пункт 5¹" = none := by
  refine ⟨by decide, by decide, by decide, by decide, by decide⟩

/-- C6: with no forced mode, any text whose processed lines contain at least
two `Article N` matches selects article mode; in particular the three-line
`Стаття 1. / Стаття 2. / Стаття 3. Назва` example yields exactly three
article segments, preceded by one preamble segment exactly when text preceded
the first article. -/
theorem segmenter_selects_article_mode (text : String)
    (hart : 2 ≤ ((segLines (normalize_text text)).filter
      (fun ln => (matchArticle ln).isSome)).length) :
    selectMode none (segLines (normalize_text text)) = "article" ∧
    ((segment_legal_text txtWithPreamble none).map (fun s => s.unit_type)) =
      [some "preamble", some "article", some "article", some "article"] ∧
    ((segment_legal_text txtNoPreamble none).map (fun s => s.unit_type)) =
      [some "article", some "article", some "article"] := by
  refine ⟨?_, by decide, by decide⟩
  simp only [selectMode]
  rw [if_pos hart]

/-- C6 witness: the preamble example itself has (more than) two article
lines, so the theorem applies to it. -/
theorem segmenter_selects_article_mode_witness :
    selectMode none (segLines (normalize_text txtWithPreamble)) = "article" :=
  (segmenter_selects_article_mode txtWithPreamble (by decide)).1

/-- C5 counterexample: a text the heuristic segments in plain mode (one
`Пункт` line, fewer than the three point hits needed for point mode) in which
the `Point N` word-form line nevertheless starts a structural unit — the
point branch fires on `mpw or (mpn and mode == "point")`, and `mpw` alone is
enough in plain mode — so the body does not accumulate as one run. -/
theorem plain_mode_point_word_starts_unit_counterexample :
    selectMode none (segLines (normalize_text "Вступне слово тут\nПункт 1. Один пункт")) = "plain" ∧
    ((segment_legal_text "Вступне слово тут\nПункт 1. Один пункт" none).map
      (fun s => s.unit_type)) = [some "preamble", some "point"] ∧
    (segment_legal_text "Вступне слово тут\nПункт 1. Один пункт" none).length ≠ 1 := by
  refine ⟨by decide, by decide, by decide⟩

theorem scanLine_plain_inv (st : ScanSt) (ln : String)
    (hpw : matchPointWord ln = none)
    (h1 : st.haveSeenUnit = false) (h2 : st.curLines = none)
    (h3 : st.pendingBetween = []) (h4 : st.segments = []) :
    (scanLine "plain" st ln).haveSeenUnit = false ∧
    (scanLine "plain" st ln).curLines = none ∧
    (scanLine "plain" st ln).pendingBetween = [] ∧
    (scanLine "plain" st ln).segments = [] ∧
    (scanLine "plain" st ln).prefaceLines = st.prefaceLines ++ [ln] := by
  unfold scanLine
  cases hsec : matchSection ln with
  | some sid => simp [bufferLine, h1, h2, h3, h4]
  | none =>
    cases hch : matchChapter ln with
    | some cid => simp [bufferLine, h1, h2, h3, h4]
    | none =>
      by_cases hps : (st.prevWasSection && is_upper_title ln) = true
      · simp [hps, bufferLine, h1, h2, h3, h4]
      · by_cases hpc : (st.prevWasChapter && is_upper_title ln) = true
        · simp [hps, hpc, bufferLine, h1, h2, h3, h4]
        · simp [hps, hpc, hpw, h1, h2, h3, h4]

theorem foldl_scan_plain (lines : List String) : ∀ (st : ScanSt),
    (∀ ln ∈ lines, matchPointWord ln = none) →
    st.haveSeenUnit = false → st.curLines = none →
    st.pendingBetween = [] → st.segments = [] →
    (lines.foldl (scanLine "plain") st).haveSeenUnit = false ∧
    (lines.foldl (scanLine "plain") st).curLines = none ∧
    (lines.foldl (scanLine "plain") st).pendingBetween = [] ∧
    (lines.foldl (scanLine "plain") st).segments = [] ∧
    (lines.foldl (scanLine "plain") st).prefaceLines = st.prefaceLines ++ lines := by
  induction lines with
  | nil => intro st _ h1 h2 h3 h4; simpa using ⟨h1, h2, h3, h4⟩
  | cons ln rest ih =>
    intro st hpw h1 h2 h3 h4
    have hstep := scanLine_plain_inv st ln (hpw ln (List.mem_cons_self _ _)) h1 h2 h3 h4
    simp only [List.foldl_cons]
    have hrest := ih (scanLine "plain" st ln)
      (fun l hl => hpw l (List.mem_cons_of_mem _ hl))
      hstep.1 hstep.2.1 hstep.2.2.1 hstep.2.2.2.1
    refine ⟨hrest.1, hrest.2.1, hrest.2.2.1, hrest.2.2.2.1, ?_⟩
    rw [hrest.2.2.2.2, hstep.2.2.2.2, List.append_assoc]
    rfl

/-- C5 (amended): in plain mode, bare numbered lines start no unit, but a
`Point N` word-form line still does; when no line matches the `Пункт N`
pattern (and the body fits under the oversize split threshold) the whole body
accumulates as one `chunk` run. -/
theorem plain_mode_accumulates_one_run (text : String)
    (hl : segLines (normalize_text text) ≠ [])
    (hpw : ∀ ln ∈ segLines (normalize_text text), matchPointWord ln = none)
    (hsz : (normalize_text (String.intercalate "\n"
      (segLines (normalize_text text)))).length ≤ chunk_size_chars * 2) :
    segment_legal_text text (some "plain") =
      [{ text := normalize_text (String.intercalate "\n" (segLines (normalize_text text))),
         path := none, heading := none, unit_type := some "chunk",
         unit_id := some "0", part := 0 }] := by
  have ht : ¬ (normalize_text text = "") := by
    intro h
    apply hl
    unfold segLines
    rw [h]
    rfl
  have hscan := foldl_scan_plain (segLines (normalize_text text)) initScan hpw
    rfl rfl rfl rfl
  have hne : (segLines (normalize_text text)).isEmpty = false := by
    cases hcase : segLines (normalize_text text) with
    | nil => exact absurd hcase hl
    | cons a t => rfl
  unfold segment_legal_text
  rw [if_neg ht]
  show postPass (segmentScan (selectMode (some "plain") (segLines (normalize_text text)))
      (segLines (normalize_text text))) = _
  have hmode : selectMode (some "plain") (segLines (normalize_text text)) = "plain" := rfl
  rw [hmode]
  unfold segmentScan
  have hfold5 : (List.foldl (scanLine "plain") initScan
      (segLines (normalize_text text))).prefaceLines = segLines (normalize_text text) := by
    rw [hscan.2.2.2.2]
    rfl
  simp only [hscan.2.1, hscan.2.2.1, hscan.2.2.2.1, hfold5, hne,
    Option.isSome_none, List.isEmpty_nil, Bool.not_false, Bool.not_true,
    Bool.false_eq_true, Bool.and_true, Bool.true_and, if_true, if_false]
  simp [postPass, hsz]

/-- C5 witness: a short two-line text with no `Пункт` line accumulates as a
single `chunk` segment in forced plain mode. -/
theorem plain_mode_accumulates_one_run_witness :
    segment_legal_text "Просто текст без структури\nще один рядок" (some "plain") =
      [{ text := normalize_text (String.intercalate "\n"
           (segLines (normalize_text "Просто текст без структури\nще один рядок"))),
         path := none, heading := none, unit_type := some "chunk",
         unit_id := some "0", part := 0 }] :=
  plain_mode_accumulates_one_run "Просто текст без структури\nще один рядок"
    (by decide) (by decide) (by decide)

theorem scoreAt_updCand (m : List (Nat × RetrievedChunk)) (cid : Nat)
    (rc : RetrievedChunk) (c : Nat) :
    scoreAt (updCand m cid rc) c =
      if cid = c then mergeMax (scoreAt m c) rc.score else scoreAt m c := by
  induction m with
  | nil =>
    by_cases h : cid = c <;> simp [updCand, scoreAt, mergeMax, h, List.find?]
  | cons p rest ih =>
    obtain ⟨k, v⟩ := p
    by_cases hk : k = cid
    · subst hk
      by_cases hs : v.score < rc.score <;> by_cases hc : k = c <;>
        simp [updCand, scoreAt, mergeMax, hs, hc, List.find?]
    · by_cases hc : k = c
      · subst hc
        have hcid : ¬ cid = k := fun h => hk h.symm
        simp [updCand, scoreAt, hk, hcid, List.find?]
      · simp only [updCand, if_neg hk]
        have : scoreAt ((k, v) :: updCand rest cid rc) c =
            scoreAt (updCand rest cid rc) c := by
          simp [scoreAt, List.find?, hc]
        rw [this, ih]
        by_cases h : cid = c <;> simp [h, scoreAt, List.find?, hc]

theorem scoreAt_foldl_vec (rows : List CandRow) : ∀ (m : List (Nat × RetrievedChunk)) (c : Nat),
    scoreAt (rows.foldl applyVecRow m) c =
      rows.foldl (fun acc r => if r.chunk_id = c then mergeMax acc (1 - r.raw) else acc)
        (scoreAt m c) := by
  induction rows with
  | nil => intro m c; rfl
  | cons r rest ih =>
    intro m c
    simp only [List.foldl_cons, applyVecRow]
    rw [ih, scoreAt_updCand]
    rfl

theorem scoreAt_foldl_fts (rows : List CandRow) : ∀ (m : List (Nat × RetrievedChunk)) (c : Nat),
    scoreAt (rows.foldl applyFtsRow m) c =
      rows.foldl (fun acc r => if r.chunk_id = c then mergeMax acc r.raw else acc)
        (scoreAt m c) := by
  induction rows with
  | nil => intro m c; rfl
  | cons r rest ih =>
    intro m c
    simp only [List.foldl_cons, applyFtsRow]
    rw [ih, scoreAt_updCand]
    rfl

theorem foldl_merge_no_match (f : CandRow → ℚ) (c : Nat) (rows : List CandRow)
    (hno : rows.filter (fun r => r.chunk_id = c) = []) :
    ∀ acc, rows.foldl (fun acc r => if r.chunk_id = c then mergeMax acc (f r) else acc) acc
      = acc := by
  induction rows with
  | nil => intro acc; rfl
  | cons r rest ih =>
    intro acc
    by_cases h : r.chunk_id = c
    · simp [List.filter, h] at hno
    · simp only [List.filter, h] at hno
      simp only [List.foldl_cons, if_neg h]
      exact ih (by simpa using hno) acc

theorem foldl_merge_single (f : CandRow → ℚ) (c : Nat) (rows : List CandRow)
    (rv : CandRow)
    (hone : rows.filter (fun r => r.chunk_id = c) = [rv]) :
    ∀ acc, rows.foldl (fun acc r => if r.chunk_id = c then mergeMax acc (f r) else acc) acc
      = mergeMax acc (f rv) := by
  induction rows with
  | nil => intro acc; simp at hone
  | cons r rest ih =>
    intro acc
    by_cases h : r.chunk_id = c
    · have hcons : r :: rest.filter (fun r => r.chunk_id = c) = [rv] := by
        simpa [List.filter, h] using hone
      have hr1 : r = rv := (List.cons.injEq _ _ _ _ ▸ hcons).1
      have hr2 : rest.filter (fun r => r.chunk_id = c) = [] :=
        (List.cons.injEq _ _ _ _ ▸ hcons).2
      subst hr1
      simp only [List.foldl_cons, if_pos h]
      exact foldl_merge_no_match f c rest hr2 _
    · have hrest : rest.filter (fun r => r.chunk_id = c) = [rv] := by
        simpa [List.filter, h] using hone
      simp only [List.foldl_cons, if_neg h]
      exact ih hrest acc

theorem mem_insertDesc (x b : RetrievedChunk) : ∀ (m : List RetrievedChunk),
    b ∈ insertDesc x m → b = x ∨ b ∈ m := by
  intro m
  induction m with
  | nil => intro hm; simpa [insertDesc] using hm
  | cons z zs ihz =>
    intro hm
    rw [insertDesc] at hm
    by_cases hz : z.score ≤ x.score
    · rw [if_pos hz] at hm
      rcases List.mem_cons.mp hm with rfl | hm2
      · exact Or.inl rfl
      · exact Or.inr hm2
    · rw [if_neg hz] at hm
      rcases List.mem_cons.mp hm with rfl | hm2
      · exact Or.inr (List.mem_cons_self _ _)
      · rcases ihz hm2 with h1 | h1
        · exact Or.inl h1
        · exact Or.inr (List.mem_cons_of_mem _ h1)

theorem insertDesc_sorted (x : RetrievedChunk) (l : List RetrievedChunk)
    (hl : List.Sorted (fun a b : RetrievedChunk => b.score ≤ a.score) l) :
    List.Sorted (fun a b : RetrievedChunk => b.score ≤ a.score) (insertDesc x l) := by
  induction l with
  | nil => simp [insertDesc]
  | cons y ys ih =>
    rw [List.sorted_cons] at hl
    by_cases h : y.score ≤ x.score
    · rw [insertDesc, if_pos h, List.sorted_cons]
      refine ⟨?_, List.sorted_cons.2 hl⟩
      intro b hb
      rcases List.mem_cons.mp hb with rfl | hb2
      · exact h
      · exact le_trans (hl.1 b hb2) h
    · rw [insertDesc, if_neg h, List.sorted_cons]
      have hins := ih hl.2
      refine ⟨?_, hins⟩
      intro b hb
      rcases mem_insertDesc x b ys hb with rfl | hb2
      · exact le_of_not_le h
      · exact hl.1 b hb2

theorem sortDesc_sorted (l : List RetrievedChunk) :
    List.Sorted (fun a b : RetrievedChunk => b.score ≤ a.score) (sortDesc l) := by
  induction l with
  | nil => simp [sortDesc]
  | cons x xs ih => exact insertDesc_sorted x (sortDesc xs) ih

/-- C2: hybrid retrieval fuses by maximum — a chunk appearing exactly once in
the vector branch (distance `rv.raw`, hence score `1 − rv.raw`) and exactly
once in the lexical branch (rank `rf.raw`) is held in the merged candidate
set with score `max (1 − rv.raw) rf.raw`; the returned list is sorted by
descending fused score and has length at most `k`. -/
theorem retrieve_max_fusion (vecRows ftsRows : List CandRow) (k c : Nat)
    (rv rf : CandRow)
    (hv : vecRows.filter (fun r => r.chunk_id = c) = [rv])
    (hf : ftsRows.filter (fun r => r.chunk_id = c) = [rf]) :
    scoreAt (mergeCandidates true vecRows ftsRows) c
      = some (max (1 - rv.raw) rf.raw) ∧
    List.Sorted (fun a b : RetrievedChunk => b.score ≤ a.score)
      (retrieve true vecRows ftsRows k) ∧
    (retrieve true vecRows ftsRows k).length ≤ k := by
  refine ⟨?_, ?_, ?_⟩
  · unfold mergeCandidates
    rw [if_pos rfl, scoreAt_foldl_fts,
      foldl_merge_single (fun r => r.raw) c ftsRows rf hf,
      scoreAt_foldl_vec,
      foldl_merge_single (fun r => 1 - r.raw) c vecRows rv hv]
    have h0 : scoreAt [] c = none := rfl
    rw [h0]
    show some (if 1 - rv.raw < rf.raw then rf.raw else 1 - rv.raw) = _
    congr 1
    by_cases h : 1 - rv.raw < rf.raw
    · rw [if_pos h, max_eq_right (le_of_lt h)]
    · rw [if_neg h, max_eq_left (le_of_not_lt h)]
  · unfold retrieve
    have hs := sortDesc_sorted
      ((mergeCandidates true vecRows ftsRows).map Prod.snd)
    have htake := List.Pairwise.sublist
      (List.take_sublist k _) hs
    exact List.Pairwise.map _ (fun a b hab => hab) htake
  · unfold retrieve
    rw [List.length_map]
    exact List.length_take_le _ _

/-- C2 witness: a chunk at cosine distance 0.1 (vector score 0.9) and lexical
rank 0.3 fuses to 0.9 — the maximum, not the sum or average. -/
theorem retrieve_max_fusion_witness :
    scoreAt (mergeCandidates true
      [{ chunk_id := 1, document_id := 1, text := "t", path := none, heading := none
       , unit_type := none, unit_id := none, raw := 1/10, doc_title := none, doc_url := none }]
      [{ chunk_id := 1, document_id := 1, text := "t", path := none, heading := none
       , unit_type := none, unit_id := none, raw := 3/10, doc_title := none, doc_url := none }]) 1
      = some (9/10) ∧
    (retrieve true
      [{ chunk_id := 1, document_id := 1, text := "t", path := none, heading := none
       , unit_type := none, unit_id := none, raw := 1/10, doc_title := none, doc_url := none }]
      [{ chunk_id := 1, document_id := 1, text := "t", path := none, heading := none
       , unit_type := none, unit_id := none, raw := 3/10, doc_title := none, doc_url := none }] 6).length ≤ 6 := by
  have h := retrieve_max_fusion
    [{ chunk_id := 1, document_id := 1, text := "t", path := none, heading := none
     , unit_type := none, unit_id := none, raw := 1/10, doc_title := none, doc_url := none }]
    [{ chunk_id := 1, document_id := 1, text := "t", path := none, heading := none
     , unit_type := none, unit_id := none, raw := 3/10, doc_title := none, doc_url := none }]
    6 1
    { chunk_id := 1, document_id := 1, text := "t", path := none, heading := none
    , unit_type := none, unit_id := none, raw := 1/10, doc_title := none, doc_url := none }
    { chunk_id := 1, document_id := 1, text := "t", path := none, heading := none
    , unit_type := none, unit_id := none, raw := 3/10, doc_title := none, doc_url := none }
    (by norm_num [List.filter]) (by norm_num [List.filter])
  refine ⟨?_, h.2.2⟩
  rw [h.1]
  norm_num

theorem firstOcc_step_nodup {α : Type} [DecidableEq α] (l : List α) :
    ∀ acc : List α, acc.Nodup →
      (l.foldl (fun ks k => if k ∈ ks then ks else ks ++ [k]) acc).Nodup := by
  induction l with
  | nil => intro acc h; exact h
  | cons k rest ih =>
    intro acc h
    simp only [List.foldl_cons]
    by_cases hk : k ∈ acc
    · rw [if_pos hk]; exact ih acc h
    · rw [if_neg hk]
      exact ih _ (by simp [List.nodup_append, h, hk])

theorem firstOcc_step_mem {α : Type} [DecidableEq α] (l : List α) :
    ∀ (acc : List α) (a : α),
      (a ∈ l.foldl (fun ks k => if k ∈ ks then ks else ks ++ [k]) acc ↔ a ∈ acc ∨ a ∈ l) := by
  induction l with
  | nil => intro acc a; simp
  | cons k rest ih =>
    intro acc a
    simp only [List.foldl_cons]
    by_cases hk : k ∈ acc
    · rw [if_pos hk, ih]
      constructor
      · rintro (h | h)
        · exact Or.inl h
        · exact Or.inr (List.mem_cons_of_mem _ h)
      · rintro (h | h)
        · exact Or.inl h
        · rcases List.mem_cons.mp h with rfl | h2
          · exact Or.inl hk
          · exact Or.inr h2
    · rw [if_neg hk, ih]
      simp only [List.mem_append, List.mem_singleton, List.mem_cons]
      tauto

theorem firstOccKeys_nodup {α : Type} [DecidableEq α] (l : List α) :
    (firstOccKeys l).Nodup :=
  firstOcc_step_nodup l [] List.nodup_nil

theorem mem_firstOccKeys {α : Type} [DecidableEq α] (l : List α) (a : α) :
    a ∈ firstOccKeys l ↔ a ∈ l := by
  rw [firstOccKeys, firstOcc_step_mem]
  simp

theorem firstOccKeys_append_one {α : Type} [DecidableEq α] (l : List α) (k : α) :
    firstOccKeys (l ++ [k]) =
      if k ∈ firstOccKeys l then firstOccKeys l else firstOccKeys l ++ [k] := by
  unfold firstOccKeys
  rw [List.foldl_append]
  rfl

theorem dedupIns_keys (k : String × String) (h : Hit) :
    ∀ acc : List ((String × String) × Hit),
      (dedupIns acc k h).map Prod.fst =
        if k ∈ acc.map Prod.fst then acc.map Prod.fst else acc.map Prod.fst ++ [k] := by
  intro acc
  induction acc with
  | nil => simp [dedupIns]
  | cons p rest ih =>
    obtain ⟨k0, h0⟩ := p
    by_cases hk : k0 = k
    · subst hk
      by_cases hs : h0.score < h.score <;>
        simp [dedupIns, hs]
    · have hne : ¬ k = k0 := fun hcon => hk hcon.symm
      simp only [dedupIns, if_neg hk, List.map_cons, ih]
      by_cases hmem : k ∈ rest.map Prod.fst <;>
        simp [hmem, hne]

theorem dedupIns_mem (k : String × String) (h : Hit) :
    ∀ (acc : List ((String × String) × Hit)) (p : (String × String) × Hit),
      p ∈ dedupIns acc k h → p ∈ acc ∨ p = (k, h) := by
  intro acc
  induction acc with
  | nil =>
    intro p hp
    simp only [dedupIns] at hp
    exact Or.inr (by simpa using hp)
  | cons q rest ih =>
    intro p hp
    obtain ⟨k0, h0⟩ := q
    simp only [dedupIns] at hp
    by_cases hk : k0 = k
    · subst hk
      rw [if_pos rfl] at hp
      by_cases hs : h0.score < h.score
      · rw [if_pos hs] at hp
        rcases List.mem_cons.mp hp with rfl | hp2
        · exact Or.inr rfl
        · exact Or.inl (List.mem_cons_of_mem _ hp2)
      · rw [if_neg hs] at hp
        exact Or.inl hp
    · rw [if_neg hk] at hp
      rcases List.mem_cons.mp hp with rfl | hp2
      · exact Or.inl (List.mem_cons_self _ _)
      · rcases ih p hp2 with h1 | h1
        · exact Or.inl (List.mem_cons_of_mem _ h1)
        · exact Or.inr h1

theorem dedupIns_at_key (k : String × String) (h : Hit) :
    ∀ (acc : List ((String × String) × Hit)),
      (acc.map Prod.fst).Nodup →
      ∀ p ∈ dedupIns acc k h, p.1 = k →
        (p = (k, h) ∧ ∀ h0 : Hit, (k, h0) ∈ acc → h0.score < h.score) ∨
        (p ∈ acc ∧ h.score ≤ p.2.score) := by
  intro acc
  induction acc with
  | nil =>
    intro _ p hp hpk
    simp only [dedupIns] at hp
    refine Or.inl ⟨by simpa using hp, ?_⟩
    intro h0 hmem
    simp at hmem
  | cons q rest ih =>
    intro hnd p hp hpk
    obtain ⟨k0, h0⟩ := q
    simp only [List.map_cons, List.nodup_cons] at hnd
    simp only [dedupIns] at hp
    by_cases hk : k0 = k
    · subst hk
      rw [if_pos rfl] at hp
      by_cases hs : h0.score < h.score
      · rw [if_pos hs] at hp
        rcases List.mem_cons.mp hp with rfl | hp2
        · refine Or.inl ⟨rfl, ?_⟩
          intro h1 hmem
          rcases List.mem_cons.mp hmem with heq | hmem2
          · cases heq
            exact hs
          · exact absurd (List.mem_map_of_mem Prod.fst hmem2) hnd.1
        · exact absurd (List.mem_map_of_mem Prod.fst hp2) (hpk ▸ hnd.1)
      · rw [if_neg hs] at hp
        rcases List.mem_cons.mp hp with rfl | hp2
        · exact Or.inr ⟨List.mem_cons_self _ _, le_of_not_lt hs⟩
        · exact absurd (List.mem_map_of_mem Prod.fst hp2) (hpk ▸ hnd.1)
    · rw [if_neg hk] at hp
      rcases List.mem_cons.mp hp with rfl | hp2
      · exact absurd hpk hk
      · rcases ih hnd.2 p hp2 hpk with ⟨heq, hall⟩ | ⟨hmem, hle⟩
        · refine Or.inl ⟨heq, ?_⟩
          intro h1 hmem
          rcases List.mem_cons.mp hmem with heq2 | hmem2
          · exact absurd (congrArg Prod.fst heq2).symm hk
          · exact hall h1 hmem2
        · exact Or.inr ⟨List.mem_cons_of_mem _ hmem, hle⟩

theorem dedup_fold_inv (sha1 : String → String) (hits : List Hit) :
    ∀ (processed : List Hit) (acc : List ((String × String) × Hit)),
      acc.map Prod.fst = firstOccKeys (processed.map (dedup_key sha1)) →
      (∀ p ∈ acc, dedup_key sha1 p.2 = p.1 ∧ p.2 ∈ processed ∧
        ∀ g ∈ processed, dedup_key sha1 g = p.1 → g.score ≤ p.2.score) →
      ((hits.foldl (fun a h => dedupIns a (dedup_key sha1 h) h) acc).map Prod.fst
          = firstOccKeys ((processed ++ hits).map (dedup_key sha1))) ∧
      (∀ p ∈ hits.foldl (fun a h => dedupIns a (dedup_key sha1 h) h) acc,
        dedup_key sha1 p.2 = p.1 ∧ p.2 ∈ processed ++ hits ∧
        ∀ g ∈ processed ++ hits, dedup_key sha1 g = p.1 → g.score ≤ p.2.score) := by
  induction hits with
  | nil =>
    intro processed acc hkeys hval
    simp only [List.foldl_nil, List.append_nil]
    exact ⟨hkeys, hval⟩
  | cons h rest ih =>
    intro processed acc hkeys hval
    have hnd : (acc.map Prod.fst).Nodup := by
      rw [hkeys]; exact firstOccKeys_nodup _
    have hkeys2 : (dedupIns acc (dedup_key sha1 h) h).map Prod.fst
        = firstOccKeys ((processed ++ [h]).map (dedup_key sha1)) := by
      rw [dedupIns_keys]
      simp only [List.map_append, List.map_cons, List.map_nil]
      rw [firstOccKeys_append_one, hkeys]
      by_cases hmem2 : dedup_key sha1 h ∈ firstOccKeys (processed.map (dedup_key sha1)) <;>
        simp [hmem2]
    have hval2 : ∀ p ∈ dedupIns acc (dedup_key sha1 h) h,
        dedup_key sha1 p.2 = p.1 ∧ p.2 ∈ processed ++ [h] ∧
        ∀ g ∈ processed ++ [h], dedup_key sha1 g = p.1 → g.score ≤ p.2.score := by
      intro p hp
      have hkeyfield : dedup_key sha1 p.2 = p.1 := by
        rcases dedupIns_mem _ _ acc p hp with hmem | rfl
        · exact (hval p hmem).1
        · rfl
      have hmemfield : p.2 ∈ processed ++ [h] := by
        rcases dedupIns_mem _ _ acc p hp with hmem | rfl
        · exact List.mem_append_left _ (hval p hmem).2.1
        · exact List.mem_append_right _ (List.mem_singleton_self _)
      refine ⟨hkeyfield, hmemfield, ?_⟩
      intro g hg hgk
      by_cases hpk : p.1 = dedup_key sha1 h
      · rcases dedupIns_at_key _ _ acc hnd p hp hpk with ⟨rfl, hall⟩ | ⟨hmem, hle⟩
        · rcases List.mem_append.mp hg with hg1 | hg2
          · have hkin : dedup_key sha1 g ∈ acc.map Prod.fst := by
              rw [hkeys, mem_firstOccKeys]
              exact List.mem_map_of_mem _ hg1
            rcases List.mem_map.mp hkin with ⟨p0, hp0mem, hp0k⟩
            obtain ⟨k1, h1v⟩ := p0
            have hk1 : k1 = dedup_key sha1 h := by
              have h1 : k1 = dedup_key sha1 g := hp0k
              rw [h1, hgk]
            subst hk1
            have hold := hval _ hp0mem
            have hlt := hall h1v hp0mem
            have hge := hold.2.2 g hg1 (by rw [hgk])
            exact le_trans hge (le_of_lt hlt)
          · have hgh : g = h := List.mem_singleton.mp hg2
            subst hgh
            exact le_refl _
        · rcases List.mem_append.mp hg with hg1 | hg2
          · exact (hval p hmem).2.2 g hg1 hgk
          · have hgh : g = h := List.mem_singleton.mp hg2
            subst hgh
            exact hle
      · have hpacc : p ∈ acc := by
          rcases dedupIns_mem _ _ acc p hp with hmem | rfl
          · exact hmem
          · exact absurd rfl hpk
        rcases List.mem_append.mp hg with hg1 | hg2
        · exact (hval p hpacc).2.2 g hg1 hgk
        · have hgh : g = h := List.mem_singleton.mp hg2
          subst hgh
          exact absurd hgk.symm hpk
    have hres := ih (processed ++ [h]) (dedupIns acc (dedup_key sha1 h) h) hkeys2 hval2
    simp only [List.foldl_cons]
    rw [List.append_cons processed h rest] at *
    exact hres

/-- C3: deduplication is order-preserving on first occurrence — the output
keys are exactly the input keys in first-occurrence order with no duplicate
key; every input key survives; and each kept hit is one of the input hits
(carrying its own text) whose score is maximal among all input hits sharing
its key. -/
theorem dedupe_keeps_best_per_key_in_first_occurrence_order
    (sha1 : String → String) (hits : List Hit) :
    ((deduplicate_hits sha1 hits).map (dedup_key sha1)
        = firstOccKeys (hits.map (dedup_key sha1))) ∧
    ((deduplicate_hits sha1 hits).map (dedup_key sha1)).Nodup ∧
    (∀ g ∈ hits, dedup_key sha1 g ∈ (deduplicate_hits sha1 hits).map (dedup_key sha1)) ∧
    (∀ h ∈ deduplicate_hits sha1 hits, h ∈ hits ∧
      ∀ g ∈ hits, dedup_key sha1 g = dedup_key sha1 h → g.score ≤ h.score) := by
  have hinv := dedup_fold_inv sha1 hits [] [] (by rfl) (by intro p hp; simp at hp)
  simp only [List.nil_append] at hinv
  have hmapkey : (deduplicate_hits sha1 hits).map (dedup_key sha1)
      = (hits.foldl (fun a h => dedupIns a (dedup_key sha1 h) h) []).map Prod.fst := by
    unfold deduplicate_hits
    rw [List.map_map]
    exact List.map_congr_left (fun p hp => (hinv.2 p hp).1)
  refine ⟨by rw [hmapkey, hinv.1], by rw [hmapkey, hinv.1]; exact firstOccKeys_nodup _, ?_, ?_⟩
  · intro g hg
    rw [hmapkey, hinv.1, mem_firstOccKeys]
    exact List.mem_map_of_mem _ hg
  · intro h hh
    unfold deduplicate_hits at hh
    rcases List.mem_map.mp hh with ⟨p, hpmem, hpsnd⟩
    have hp := hinv.2 p hpmem
    subst hpsnd
    exact ⟨hp.2.1, fun g hg hgk => hp.2.2 g hg (by rw [hgk, hp.1])⟩

theorem mem_dropWhile_of_not (p : Char → Bool) :
    ∀ (l : List Char) (c : Char), c ∈ l → p c = false → c ∈ l.dropWhile p := by
  intro l
  induction l with
  | nil => intro c hc; simp at hc
  | cons a rest ih =>
    intro c hc hpc
    by_cases ha : p a
    · rw [List.dropWhile_cons_of_pos ha]
      rcases List.mem_cons.mp hc with rfl | hc2
      · rw [ha] at hpc; cases hpc
      · exact ih c hc2 hpc
    · rw [List.dropWhile_cons_of_neg ha]
      exact hc

theorem mem_pyRstripL :
    ∀ (l : List Char) (c : Char), c ∈ l → isPySpace c = false → c ∈ pyRstripL l := by
  intro l
  induction l with
  | nil => intro c hc; simp at hc
  | cons a rest ih =>
    intro c hc hpc
    rw [pyRstripL]
    by_cases hcond : ((pyRstripL rest).isEmpty && isPySpace a) = true
    · exfalso
      rcases List.mem_cons.mp hc with rfl | hc2
      · rw [Bool.and_eq_true] at hcond
        rw [hcond.2] at hpc
        cases hpc
      · have hmem := ih c hc2 hpc
        rw [Bool.and_eq_true, List.isEmpty_iff] at hcond
        rw [hcond.1] at hmem
        simp at hmem
    · simp only [hcond, if_false]
      rcases List.mem_cons.mp hc with rfl | hc2
      · exact List.mem_cons_self _ _
      · exact List.mem_cons_of_mem _ (ih c hc2 hpc)

theorem mem_pyStripL (l : List Char) (c : Char) (hc : c ∈ l)
    (hpc : isPySpace c = false) : c ∈ pyStripL l :=
  mem_pyRstripL _ c (mem_dropWhile_of_not _ l c hc hpc) hpc

theorem mem_slice (cs : List Char) (i j p : Nat) (hip : i ≤ p) (hpj : p < j)
    (hp : p < cs.length) : cs[p] ∈ pySlice cs i j := by
  have h2 : p - i < (cs.drop i).length := by
    rw [List.length_drop]; omega
  have h1 : p - i < j - i := by omega
  have h3 : p - i < ((cs.drop i).take (j - i)).length := by
    rw [List.length_take]; omega
  have he : ((cs.drop i).take (j - i))[p - i] = cs[p] := by
    rw [List.getElem_take, List.getElem_drop]
    congr 1
    omega
  rw [pySlice, ← he]
  exact List.getElem_mem h3

theorem chunkLoop_cover (cs : List Char) (size overlap : Nat) (hso : overlap < size) :
    ∀ (n i : Nat), cs.length - i = n → ∀ (p : Nat), i ≤ p → ∀ (hp : p < cs.length),
      isPySpace cs[p] = false →
      ∃ s ∈ chunkLoop cs size overlap hso i, cs[p] ∈ s.data := by
  intro n
  induction n using Nat.strong_induction_on with
  | _ n ihn =>
    intro i hni p hip hp hsp
    have hin : i < cs.length := lt_of_le_of_lt hip hp
    rw [chunkLoop, dif_pos hin]
    by_cases hpj : p < min cs.length (i + size)
    · -- the character lies in this window's slice
      have hmem : cs[p] ∈ pySlice cs i (min cs.length (i + size)) :=
        mem_slice cs i _ p hip hpj hp
      have hmem2 : cs[p] ∈ (pyStrip (String.mk (pySlice cs i (min cs.length (i + size))))).data := by
        show cs[p] ∈ pyStripL (pySlice cs i (min cs.length (i + size)))
        exact mem_pyStripL _ _ hmem hsp
      have hne : ¬ pyStrip (String.mk (pySlice cs i (min cs.length (i + size)))) = "" := by
        intro hcon
        rw [hcon] at hmem2
        simp at hmem2
      by_cases hj : min cs.length (i + size) = cs.length
      · rw [dif_pos hj, if_neg hne]
        exact ⟨_, List.mem_singleton_self _, hmem2⟩
      · rw [dif_neg hj, if_neg hne]
        exact ⟨_, List.mem_cons_self _ _, hmem2⟩
    · -- the character lies beyond this window: recurse
      have hj : ¬ min cs.length (i + size) = cs.length := by
        intro hcon
        rw [hcon] at hpj
        exact hpj hp
      have hjeq : min cs.length (i + size) = i + size := by
        rcases Nat.le_total cs.length (i + size) with hle | hle
        · exact absurd (Nat.min_eq_left hle) hj
        · exact Nat.min_eq_right hle
      rw [dif_neg hj]
      have hip2 : min cs.length (i + size) - overlap ≤ p := by omega
      have hmeas : cs.length - (min cs.length (i + size) - overlap) < n := by omega
      obtain ⟨s, hs, hcs⟩ := ihn _ hmeas (min cs.length (i + size) - overlap) rfl
        p hip2 hp hsp
      refine ⟨s, ?_, hcs⟩
      by_cases hne : pyStrip (String.mk (pySlice cs i (min cs.length (i + size)))) = ""
      · rw [if_pos hne]
        simpa using hs
      · rw [if_neg hne]
        exact List.mem_append_right _ hs

/-- C9 (implicit): `chunk_text` is total (its window loop is well-founded
because an overlap at or above the chunk size is internally reduced to
`chunk_size // 4`, making each window start strictly increase), and every
non-whitespace character of the normalized text appears in at least one
returned chunk. -/
theorem chunk_text_covers_text (text : String) (size overlap : Nat)
    (hsz : 0 < size) :
    ∀ c ∈ (normalize_text text).data, isPySpace c = false →
      ∃ s ∈ chunk_text text size overlap, c ∈ s.data := by
  intro c hc hsp
  rcases List.mem_iff_getElem.mp hc with ⟨p, hp, hgp⟩
  have hsz2 : ¬ size = 0 := Nat.pos_iff_ne_zero.mp hsz
  unfold chunk_text
  rw [dif_neg hsz2]
  by_cases hov : size ≤ overlap
  · rw [dif_pos hov]
    obtain ⟨s, hs, hcs⟩ := chunkLoop_cover (normalize_text text).data size (size / 4)
      (Nat.div_lt_self hsz (by decide)) ((normalize_text text).data.length - 0) 0 rfl
      p (Nat.zero_le p) hp (hgp ▸ hsp)
    exact ⟨s, hs, hgp ▸ hcs⟩
  · rw [dif_neg hov]
    obtain ⟨s, hs, hcs⟩ := chunkLoop_cover (normalize_text text).data size overlap
      (Nat.lt_of_not_le hov) ((normalize_text text).data.length - 0) 0 rfl
      p (Nat.zero_le p) hp (hgp ▸ hsp)
    exact ⟨s, hs, hgp ▸ hcs⟩

/-- C9 witness: with chunk size 4 and an overlap of 6 (internally reduced to
1), the character `j` of a concrete 10-character text appears in a returned
chunk. -/
theorem chunk_text_covers_text_witness :
    ∃ s ∈ chunk_text "abcdefghij" 4 6, 'j' ∈ s.data :=
  chunk_text_covers_text "abcdefghij" 4 6 (by decide) 'j' (by decide) (by decide)

theorem crlfToLf_no_cr : ∀ l, '\r' ∉ crlfToLf l := by
  intro l
  induction l using crlfToLf.induct with
  | case1 => simp [crlfToLf]
  | case2 rest ih => simp [crlfToLf]; exact ih
  | case3 rest h ih => simp [crlfToLf]; exact ih
  | case4 c rest h hne ih =>
    rw [crlfToLf.eq_4 c rest h hne]
    simp only [List.mem_cons]
    rintro (rfl | hmem)
    · exact hne rfl
    · exact ih hmem

theorem crlfToLf_id : ∀ l : List Char, '\r' ∉ l → crlfToLf l = l := by
  intro l
  induction l using crlfToLf.induct with
  | case1 => intro _; rfl
  | case2 rest ih => intro h; simp at h
  | case3 rest h ih => intro h2; simp at h2
  | case4 c rest h hne ih =>
    intro h2
    simp only [List.mem_cons, not_or] at h2
    rw [crlfToLf.eq_4 c rest h hne, ih h2.2]

theorem collapseWs_cons_ws (a : Char) (rest : List Char) (hwa : isWsCh a = true) :
    collapseWs (a :: rest) =
      (if (collapseWs rest).head? = some ' ' then collapseWs rest
       else ' ' :: collapseWs rest) := by
  simp only [collapseWs, if_pos hwa]
  split
  · rename_i tail heq
    rw [heq]
    simp
  · rename_i hnm
    rw [if_neg]
    intro hcon
    rcases hcw : collapseWs rest with _ | ⟨b, t⟩
    · rw [hcw] at hcon; cases hcon
    · rw [hcw] at hcon
      simp only [List.head?_cons, Option.some.injEq] at hcon
      exact hnm t (by rw [hcw, hcon])

theorem collapseWs_cons_nws (a : Char) (rest : List Char) (hwa : isWsCh a = false) :
    collapseWs (a :: rest) = a :: collapseWs rest := by
  simp only [collapseWs]
  rw [if_neg (by simp [hwa])]

theorem mem_collapseWs : ∀ (l : List Char) (c : Char),
    c ∈ collapseWs l → c = ' ' ∨ c ∈ l := by
  intro l
  induction l with
  | nil => intro c hc; simp [collapseWs] at hc
  | cons a rest ih =>
    intro c hc
    by_cases hw : isWsCh a
    · rw [collapseWs_cons_ws a rest hw] at hc
      by_cases hh : (collapseWs rest).head? = some ' '
      · rw [if_pos hh] at hc
        rcases ih c hc with h1 | h1
        · exact Or.inl h1
        · exact Or.inr (List.mem_cons_of_mem _ h1)
      · rw [if_neg hh] at hc
        rcases List.mem_cons.mp hc with rfl | h2
        · exact Or.inl rfl
        · rcases ih c h2 with h1 | h1
          · exact Or.inl h1
          · exact Or.inr (List.mem_cons_of_mem _ h1)
    · rw [collapseWs_cons_nws a rest (by simpa using hw)] at hc
      rcases List.mem_cons.mp hc with rfl | h2
      · exact Or.inr (List.mem_cons_self _ _)
      · rcases ih c h2 with h1 | h1
        · exact Or.inl h1
        · exact Or.inr (List.mem_cons_of_mem _ h1)

theorem wsCharsOk_collapseWs : ∀ l, wsCharsOk (collapseWs l) := by
  intro l
  induction l with
  | nil => intro c hc; simp [collapseWs] at hc
  | cons a rest ih =>
    intro c hc hw
    by_cases hwa : isWsCh a
    · rw [collapseWs_cons_ws a rest hwa] at hc
      by_cases hh : (collapseWs rest).head? = some ' '
      · rw [if_pos hh] at hc
        exact ih c hc hw
      · rw [if_neg hh] at hc
        rcases List.mem_cons.mp hc with rfl | h2
        · rfl
        · exact ih c h2 hw
    · rw [collapseWs_cons_nws a rest (by simpa using hwa)] at hc
      rcases List.mem_cons.mp hc with rfl | h2
      · exact absurd hw (by simpa using hwa)
      · exact ih c h2 hw

theorem wsChainOk_collapseWs : ∀ l, wsChainOk (collapseWs l) := by
  intro l
  induction l with
  | nil => simp [collapseWs, wsChainOk]
  | cons a rest ih =>
    by_cases hwa : isWsCh a
    · rw [collapseWs_cons_ws a rest hwa]
      by_cases hh : (collapseWs rest).head? = some ' '
      · rw [if_pos hh]
        exact ih
      · rw [if_neg hh]
        rw [wsChainOk, List.chain'_cons']
        refine ⟨?_, ih⟩
        intro x hx hcon
        apply hh
        rw [Option.mem_def] at hx
        rw [hx, hcon.2]
    · rw [collapseWs_cons_nws a rest (by simpa using hwa)]
      rw [wsChainOk, List.chain'_cons']
      refine ⟨?_, ih⟩
      intro x hx hcon
      apply hwa
      rw [hcon.1]
      simp [isWsCh]

theorem collapseWs_id : ∀ l : List Char, wsCharsOk l → wsChainOk l → collapseWs l = l := by
  intro l
  induction l with
  | nil => intro _ _; rfl
  | cons a rest ih =>
    intro hchars hchain
    have hchars2 : wsCharsOk rest := fun c hc => hchars c (List.mem_cons_of_mem _ hc)
    have hchain2 : wsChainOk rest := List.Chain'.tail hchain
    have hr : collapseWs rest = rest := ih hchars2 hchain2
    by_cases hwa : isWsCh a
    · have ha : a = ' ' := hchars a (List.mem_cons_self _ _) hwa
      subst ha
      rw [collapseWs_cons_ws ' ' rest hwa, hr, if_neg]
      intro hcon
      rcases hrest : rest with _ | ⟨b, t⟩
      · rw [hrest] at hcon; cases hcon
      · rw [hrest] at hcon
        simp only [List.head?_cons, Option.some.injEq] at hcon
        rw [wsChainOk, hrest, List.chain'_cons'] at hchain
        exact hchain.1 b (by simp) ⟨rfl, hcon⟩
    · rw [collapseWs_cons_nws a rest (by simpa using hwa), hr]

theorem mem_collapseNlEmit (n : Nat) (c : Char) (h : c ∈ collapseNlEmit n) :
    c = '\n' := by
  rw [collapseNlEmit] at h
  by_cases h3 : 3 ≤ n
  · rw [if_pos h3] at h
    rcases List.mem_cons.mp h with rfl | h2
    · rfl
    · simpa using h2
  · rw [if_neg h3] at h
    exact List.eq_of_mem_replicate h

theorem mem_collapseNlAux : ∀ (l : List Char) (n : Nat) (c : Char),
    c ∈ collapseNlAux n l → c = '\n' ∨ c ∈ l := by
  intro l
  induction l with
  | nil => intro n c hc; exact Or.inl (mem_collapseNlEmit n c hc)
  | cons a rest ih =>
    intro n c hc
    rw [collapseNlAux] at hc
    by_cases ha : a = '\n'
    · rw [if_pos ha] at hc
      rcases ih (n + 1) c hc with h1 | h1
      · exact Or.inl h1
      · exact Or.inr (List.mem_cons_of_mem _ h1)
    · rw [if_neg ha] at hc
      rcases List.mem_append.mp hc with h1 | h1
      · exact Or.inl (mem_collapseNlEmit n c h1)
      · rcases List.mem_cons.mp h1 with rfl | h2
        · exact Or.inr (List.mem_cons_self _ _)
        · rcases ih 0 c h2 with h3 | h3
          · exact Or.inl h3
          · exact Or.inr (List.mem_cons_of_mem _ h3)

theorem collapseNlEmit_ne_nil (n : Nat) (hn : 1 ≤ n) : collapseNlEmit n ≠ [] := by
  rw [collapseNlEmit]
  by_cases h3 : 3 ≤ n
  · rw [if_pos h3]; simp
  · rw [if_neg h3]
    rcases n with _ | m
    · omega
    · simp [List.replicate_succ]

theorem collapseNlEmit_head (n : Nat) (hn : 1 ≤ n) :
    (collapseNlEmit n).head? = some '\n' := by
  rw [collapseNlEmit]
  by_cases h3 : 3 ≤ n
  · rw [if_pos h3]; rfl
  · rw [if_neg h3]
    rcases n with _ | m
    · omega
    · rw [List.replicate_succ]
      rfl

theorem collapseNlAux_head_pos : ∀ (l : List Char) (n : Nat), 1 ≤ n →
    (collapseNlAux n l).head? = some '\n' := by
  intro l
  induction l with
  | nil => intro n hn; exact collapseNlEmit_head n hn
  | cons a rest ih =>
    intro n hn
    rw [collapseNlAux]
    by_cases ha : a = '\n'
    · rw [if_pos ha]
      exact ih (n + 1) (by omega)
    · rw [if_neg ha, List.head?_append_of_ne_nil _ (collapseNlEmit_ne_nil n hn)]
      exact collapseNlEmit_head n hn

theorem collapseNl_head : ∀ l : List Char, (collapseNl l).head? = l.head? := by
  intro l
  rcases l with _ | ⟨a, rest⟩
  · rfl
  · rw [collapseNl, collapseNlAux]
    by_cases ha : a = '\n'
    · rw [if_pos ha, collapseNlAux_head_pos rest 1 (le_refl 1), ha]
      rfl
    · rw [if_neg ha]
      have : collapseNlEmit 0 = [] := rfl
      rw [this]
      rfl

theorem noTriple_tail (a : Char) (l : List Char)
    (h : noTripleNl (a :: l) = true) : noTripleNl l = true := by
  rcases l with _ | ⟨b, _ | ⟨c, rest⟩⟩
  · rfl
  · rfl
  · rw [noTripleNl, Bool.and_eq_true] at h
    exact h.2

theorem noTriple_drop_head : ∀ (pre l : List Char),
    noTripleNl (pre ++ l) = true → noTripleNl l = true := by
  intro pre
  induction pre with
  | nil => intro l h; exact h
  | cons a rest ih =>
    intro l h
    exact ih l (noTriple_tail a _ h)

theorem noTriple_cons_nonNl (a : Char) (l : List Char) (ha : ¬ a = '\n')
    (h : noTripleNl l = true) : noTripleNl (a :: l) = true := by
  rcases l with _ | ⟨b, _ | ⟨c, rest⟩⟩
  · rfl
  · rfl
  · rw [noTripleNl, Bool.and_eq_true]
    refine ⟨by simp [ha], h⟩

theorem noTriple_one_nl_cons (c : Char) (t : List Char) (hc : ¬ c = '\n')
    (h : noTripleNl (c :: t) = true) :
    noTripleNl ('\n' :: c :: t) = true := by
  rcases t with _ | ⟨d, t2⟩
  · rfl
  · rw [noTripleNl, Bool.and_eq_true]
    exact ⟨by simp [hc], h⟩

theorem noTriple_two_nl_cons (c : Char) (t : List Char) (hc : ¬ c = '\n')
    (h : noTripleNl (c :: t) = true) :
    noTripleNl ('\n' :: '\n' :: c :: t) = true := by
  rw [noTripleNl, Bool.and_eq_true]
  refine ⟨by simp [hc], ?_⟩
  rcases t with _ | ⟨d, t2⟩
  · rfl
  · rw [noTripleNl, Bool.and_eq_true]
    exact ⟨by simp [hc], h⟩

theorem noTriple_emit_append (n : Nat) (c : Char) (t : List Char)
    (hc : ¬ c = '\n') (h : noTripleNl (c :: t) = true) :
    noTripleNl (collapseNlEmit n ++ c :: t) = true := by
  rw [collapseNlEmit]
  by_cases h3 : 3 ≤ n
  · rw [if_pos h3]
    exact noTriple_two_nl_cons c t hc h
  · rw [if_neg h3]
    rcases n with _ | _ | _ | m
    · exact h
    · rw [List.replicate_succ, List.replicate_zero]
      simp only [List.nil_append, List.cons_append]
      exact noTriple_one_nl_cons c t hc h
    · rw [List.replicate_succ, List.replicate_succ, List.replicate_zero]
      simp only [List.nil_append, List.cons_append, List.append_nil]
      exact noTriple_two_nl_cons c t hc h
    · omega

theorem noTriple_collapseNlEmit (n : Nat) : noTripleNl (collapseNlEmit n) = true := by
  rw [collapseNlEmit]
  by_cases h3 : 3 ≤ n
  · rw [if_pos h3]; rfl
  · rw [if_neg h3]
    rcases n with _ | _ | _ | m
    · rfl
    · rfl
    · rfl
    · omega

theorem noTriple_collapseNlAux : ∀ (l : List Char) (n : Nat),
    noTripleNl (collapseNlAux n l) = true := by
  intro l
  induction l with
  | nil => intro n; exact noTriple_collapseNlEmit n
  | cons a rest ih =>
    intro n
    rw [collapseNlAux]
    by_cases ha : a = '\n'
    · rw [if_pos ha]
      exact ih (n + 1)
    · rw [if_neg ha]
      exact noTriple_emit_append n a _ ha (noTriple_cons_nonNl a _ ha (ih 0))

theorem noTriple_aux_id : ∀ (l : List Char) (n : Nat), n ≤ 2 →
    noTripleNl (List.replicate n '\n' ++ l) = true →
    collapseNlAux n l = List.replicate n '\n' ++ l := by
  intro l
  induction l with
  | nil =>
    intro n hn _
    rw [collapseNlAux, collapseNlEmit, if_neg (by omega), List.append_nil]
  | cons a rest ih =>
    intro n hn h
    rw [collapseNlAux]
    by_cases ha : a = '\n'
    · subst ha
      have hshift : List.replicate n '\n' ++ '\n' :: rest
          = List.replicate (n + 1) '\n' ++ rest := by
        rw [List.replicate_succ']
        simp
      rw [if_pos rfl]
      have hn1 : n + 1 ≤ 2 := by
        by_contra hcon
        have hn2 : n = 2 := by omega
        subst hn2
        rw [hshift] at h
        simp [List.replicate_succ, noTripleNl] at h
      rw [ih (n + 1) hn1 (by rw [← hshift]; exact h), hshift]
    · rw [if_neg ha, collapseNlEmit, if_neg (by omega)]
      have hrest : noTripleNl rest = true := by
        have h2 := noTriple_drop_head (List.replicate n '\n') _ h
        exact noTriple_tail a rest h2
      rw [ih 0 (by omega) (by simpa using hrest)]
      simp

theorem collapseNl_id (l : List Char) (h : noTripleNl l = true) :
    collapseNl l = l := by
  have := noTriple_aux_id l 0 (by omega) (by simpa using h)
  simpa using this

theorem wsChainOk_of_no_space : ∀ l : List Char, (∀ c ∈ l, ¬ c = ' ') → wsChainOk l := by
  intro l
  induction l with
  | nil => intro _; simp [wsChainOk]
  | cons a rest ih =>
    intro h
    rw [wsChainOk, List.chain'_cons']
    refine ⟨?_, ih (fun c hc => h c (List.mem_cons_of_mem _ hc))⟩
    intro x _ hcon
    exact h a (List.mem_cons_self _ _) hcon.1

theorem wsChainOk_collapseNlAux : ∀ (l : List Char) (n : Nat),
    wsChainOk l → wsChainOk (collapseNlAux n l) := by
  intro l
  induction l with
  | nil =>
    intro n _
    exact wsChainOk_of_no_space _
      (fun c hc => by rw [mem_collapseNlEmit n c hc]; decide)
  | cons a rest ih =>
    intro n hch
    rw [collapseNlAux]
    by_cases ha : a = '\n'
    · rw [if_pos ha]
      exact ih (n + 1) (List.Chain'.tail hch)
    · rw [if_neg ha, wsChainOk, List.chain'_append]
      refine ⟨wsChainOk_of_no_space _
          (fun c hc => by rw [mem_collapseNlEmit n c hc]; decide), ?_, ?_⟩
      · rw [List.chain'_cons']
        refine ⟨?_, ih 0 (List.Chain'.tail hch)⟩
        intro y hy hcon
        have hhead : (collapseNlAux 0 rest).head? = rest.head? := collapseNl_head rest
        rw [Option.mem_def, hhead] at hy
        rw [wsChainOk, List.chain'_cons'] at hch
        exact hch.1 y hy hcon
      · intro x hx y _ hcon
        have hx2 : x = '\n' :=
          mem_collapseNlEmit n x (List.mem_of_mem_getLast? hx)
        rw [hx2] at hcon
        exact absurd hcon.1 (by decide)

theorem pyRstripL_pfx : ∀ l : List Char, pyRstripL l <+: l := by
  intro l
  induction l with
  | nil => exact List.prefix_refl _
  | cons a rest ih =>
    simp only [pyRstripL]
    by_cases hcond : ((pyRstripL rest).isEmpty && isPySpace a) = true
    · rw [if_pos hcond]
      exact List.nil_prefix
    · rw [if_neg hcond]
      obtain ⟨t, ht⟩ := ih
      exact ⟨t, by rw [List.cons_append, ht]⟩

theorem pyRstripL_idem : ∀ l : List Char, pyRstripL (pyRstripL l) = pyRstripL l := by
  intro l
  induction l with
  | nil => rfl
  | cons a rest ih =>
    simp only [pyRstripL]
    by_cases hcond : ((pyRstripL rest).isEmpty && isPySpace a) = true
    · rw [if_pos hcond]
      rfl
    · rw [if_neg hcond]
      simp only [pyRstripL, ih]
      rw [if_neg hcond]

theorem head?_dropWhile_not (p : Char → Bool) :
    ∀ (l : List Char) (c : Char), (l.dropWhile p).head? = some c → p c = false := by
  intro l
  induction l with
  | nil => intro c hc; simp at hc
  | cons a rest ih =>
    intro c hc
    by_cases ha : p a
    · rw [List.dropWhile_cons_of_pos ha] at hc
      exact ih c hc
    · rw [List.dropWhile_cons_of_neg ha] at hc
      simp only [List.head?_cons, Option.some.injEq] at hc
      rw [← hc]
      simpa using ha

theorem pyStripL_idem (l : List Char) : pyStripL (pyStripL l) = pyStripL l := by
  rw [pyStripL, pyStripL]
  have hdw : (pyRstripL (List.dropWhile isPySpace l)).dropWhile isPySpace
      = pyRstripL (List.dropWhile isPySpace l) := by
    rcases hr : pyRstripL (List.dropWhile isPySpace l) with _ | ⟨b, t⟩
    · rfl
    · obtain ⟨u, hu⟩ := pyRstripL_pfx (List.dropWhile isPySpace l)
      rw [hr] at hu
      have hb : (List.dropWhile isPySpace l).head? = some b := by
        rw [← hu]
        rfl
      have hbs : isPySpace b = false := head?_dropWhile_not isPySpace l b hb
      rw [List.dropWhile_cons_of_neg (by simp [hbs])]
  rw [hdw, pyRstripL_idem]

theorem mem_of_pyStripL (l : List Char) (c : Char) (hc : c ∈ pyStripL l) : c ∈ l := by
  rw [pyStripL] at hc
  have h1 : c ∈ (l.dropWhile isPySpace) :=
    (pyRstripL_pfx _).sublist.subset hc
  exact (List.dropWhile_suffix isPySpace).sublist.subset h1

theorem noTriple_of_prefix : ∀ (l p : List Char), p <+: l →
    noTripleNl l = true → noTripleNl p = true := by
  intro l
  induction l with
  | nil =>
    intro p hp _
    rw [List.prefix_nil.mp hp]
    rfl
  | cons x l2 ih =>
    intro p hp h
    rcases p with _ | ⟨q, p2⟩
    · rfl
    · obtain ⟨t, ht⟩ := hp
      rw [List.cons_append] at ht
      injection ht with hq ht2
      subst hq
      rcases p2 with _ | ⟨b, _ | ⟨c, p4⟩⟩
      · rfl
      · rfl
      · have hl2 : l2 = b :: c :: (p4 ++ t) := by
          rw [← ht2, List.cons_append, List.cons_append]
        rw [noTripleNl, Bool.and_eq_true]
        constructor
        · rw [hl2, noTripleNl, Bool.and_eq_true] at h
          exact h.1
        · exact ih _ ⟨t, ht2⟩ (noTriple_tail q l2 h)

theorem noTriple_pyStripL (l : List Char) (h : noTripleNl l = true) :
    noTripleNl (pyStripL l) = true := by
  rw [pyStripL]
  obtain ⟨pre, hpre⟩ := List.dropWhile_suffix (l := l) isPySpace
  have h1 : noTripleNl (l.dropWhile isPySpace) = true :=
    noTriple_drop_head pre _ (by rw [hpre]; exact h)
  exact noTriple_of_prefix _ _ (pyRstripL_pfx _) h1

theorem wsChainOk_pyStripL (l : List Char) (h : wsChainOk l) :
    wsChainOk (pyStripL l) :=
  List.Chain'.prefix (h.suffix (List.dropWhile_suffix isPySpace)) (pyRstripL_pfx _)

/-- C10 (implicit): `normalize_text` is idempotent, and consequently the
`content_hash` stored with a freshly created Document equals the digest
recomputed from its stored, already-normalized `content_text` — change
detection is stable under re-ingestion of identical content. -/
theorem normalize_text_idempotent (s : String) (sha : String → String)
    (embed : List String → Option (List (List ℚ)))
    (st : IngestSt) (src : SourceRow) (doc_url : String) (title : Option String)
    (content_text : String) (meta : List (String × String))
    (segments : List Segment) (st1 : IngestSt) (res : IngestResult) :
    normalize_text (normalize_text s) = normalize_text s ∧
    (store_document_and_chunks sha embed st src doc_url title content_text meta segments
        = .ok (st1, res) → res.changed = true →
      ∃ d : DocRow, st1.documents.getLast? = some d ∧ d.id = res.document_id ∧
        d.content_text = normalize_text content_text ∧
        sha (normalize_text d.content_text) = d.content_hash) := by
  have hidem : ∀ u : String, normalize_text (normalize_text u) = normalize_text u := by
    intro u
    have hdata : (normalize_text u).data
        = pyStripL (collapseNl (collapseWs (crlfToLf u.data))) := rfl
    have hnocr : '\r' ∉ (normalize_text u).data := by
      rw [hdata]
      intro hmem
      have h3 := mem_of_pyStripL _ _ hmem
      rcases mem_collapseNlAux _ 0 _ h3 with h4 | h4
      · cases h4
      · rcases mem_collapseWs _ _ h4 with h5 | h5
        · cases h5
        · exact crlfToLf_no_cr _ h5
    have hchars : wsCharsOk (normalize_text u).data := by
      rw [hdata]
      intro c hc hw
      have h3 := mem_of_pyStripL _ _ hc
      rcases mem_collapseNlAux _ 0 _ h3 with h4 | h4
      · rw [h4] at hw
        cases hw
      · exact wsCharsOk_collapseWs _ c h4 hw
    have hchain : wsChainOk (normalize_text u).data := by
      rw [hdata]
      exact wsChainOk_pyStripL _
        (wsChainOk_collapseNlAux _ 0 (wsChainOk_collapseWs _))
    have hnt : noTripleNl (normalize_text u).data = true := by
      rw [hdata]
      exact noTriple_pyStripL _ (noTriple_collapseNlAux _ 0)
    show String.mk (pyStripL (collapseNl (collapseWs (crlfToLf (normalize_text u).data))))
        = normalize_text u
    rw [crlfToLf_id _ hnocr, collapseWs_id _ hchars hchain, collapseNl_id _ hnt]
    rw [hdata, pyStripL_idem]
    rfl
  refine ⟨hidem s, ?_⟩
  intro hok hchanged
  unfold store_document_and_chunks at hok
  by_cases hval : (normalize_text content_text = "" || decide ((normalize_text content_text).length < 80)) = true
  · rw [if_pos hval] at hok
    cases hok
  · rw [if_neg hval] at hok
    have hgoal :
        storeNewDocument embed st src doc_url title (normalize_text content_text)
            (sha (normalize_text content_text)) meta segments = (st1, res) →
        ∃ d : DocRow, st1.documents.getLast? = some d ∧ d.id = res.document_id ∧
          d.content_text = normalize_text content_text ∧
          sha (normalize_text d.content_text) = d.content_hash := by
      intro hpair
      rw [storeNewDocument, Prod.mk.injEq] at hpair
      obtain ⟨hst, hres⟩ := hpair
      refine ⟨_, by rw [← hst]; exact List.getLast?_concat _, by rw [← hres], rfl, ?_⟩
      show sha (normalize_text (normalize_text content_text))
          = sha (normalize_text content_text)
      rw [hidem content_text]
    rcases hlast : lastDocFor st.documents src.id with _ | d0
    · rw [hlast] at hok
      dsimp only at hok
      injection hok with hok2
      exact hgoal hok2
    · rw [hlast] at hok
      dsimp only at hok
      by_cases hh : d0.content_hash = sha (normalize_text content_text)
      · rw [if_pos hh] at hok
        injection hok with hok2
        rw [Prod.mk.injEq] at hok2
        rw [← hok2.2] at hchanged
        cases hchanged
      · rw [if_neg hh] at hok
        injection hok with hok2
        exact hgoal hok2

/-- C10 witness: a concrete changed-content store run in which the stored
Document's hash equals the hash of its stored normalized text. -/
theorem normalize_text_idempotent_witness :
    normalize_text (normalize_text "a\r\n\n\n\nb  c") = normalize_text "a\r\n\n\n\nb  c" :=
  (normalize_text_idempotent "a\r\n\n\n\nb  c" (fun s => s) (fun _ => none)
    { sources := [], documents := [], chunks := [], nextId := 0, now := 0 }
    { id := 0, url := "", kind := "", title := none, is_active := true }
    "" none "" [] []
    { sources := [], documents := [], chunks := [], nextId := 0, now := 0 }
    { source_id := 0, document_id := 0, chunks_upserted := 0, changed := false }).1

theorem ciStrip_suffix : ∀ (kw l r : List Char), ciStrip kw l = some r → r <:+ l := by
  intro kw
  induction kw with
  | nil =>
    intro l r h
    rw [ciStrip] at h
    injection h with h2
    rw [← h2]
  | cons p ps ih =>
    intro l r h
    rcases l with _ | ⟨c, cs⟩
    · cases h
    · rw [ciStrip] at h
      by_cases hc : pyLowerChar c = p
      · rw [if_pos hc] at h
        exact (ih cs r h).trans (List.suffix_cons c cs)
      · rw [if_neg hc] at h
        cases h

theorem isNeedMoreLine_false_of_no_eq (ln : List Char) (h : '=' ∉ ln) :
    isNeedMoreLine ln = false := by
  rw [isNeedMoreLine]
  rcases hc : ciStrip "need_more_info".data (ln.dropWhile isPySpace) with _ | r1
  · rfl
  · dsimp only
    split
    · rename_i r3 heq
      exfalso
      apply h
      have h1 : '=' ∈ r1.dropWhile isPySpace := by
        rw [heq]
        exact List.mem_cons_self _ _
      have h2 : '=' ∈ r1 := (List.dropWhile_suffix _).sublist.subset h1
      have h3 : '=' ∈ ln.dropWhile isPySpace :=
        (ciStrip_suffix _ _ _ hc).sublist.subset h2
      exact (List.dropWhile_suffix _).sublist.subset h3
    · rfl

theorem splitOnNl_ne_nil : ∀ l : List Char, splitOnNl l ≠ [] := by
  intro l
  cases l with
  | nil => simp [splitOnNl]
  | cons c rest =>
    rw [splitOnNl]
    by_cases hc : c = '\n'
    · rw [if_pos hc]; simp
    · rw [if_neg hc]
      split <;> simp

theorem mem_splitOnNl : ∀ (l : List Char) (p : List Char), p ∈ splitOnNl l →
    ∀ c ∈ p, c ∈ l := by
  intro l
  induction l with
  | nil =>
    intro p hp c hc
    simp [splitOnNl] at hp
    rw [hp] at hc
    simp at hc
  | cons a rest ih =>
    intro p hp c hc
    rw [splitOnNl] at hp
    by_cases ha : a = '\n'
    · rw [if_pos ha] at hp
      rcases List.mem_cons.mp hp with rfl | hp2
      · simp at hc
      · exact List.mem_cons_of_mem _ (ih p hp2 c hc)
    · rw [if_neg ha] at hp
      rcases hS : splitOnNl rest with _ | ⟨l0, ls⟩
      · exact absurd hS (splitOnNl_ne_nil rest)
      · rw [hS] at hp
        rcases List.mem_cons.mp hp with rfl | hp2
        · rcases List.mem_cons.mp hc with rfl | hc2
          · exact List.mem_cons_self _ _
          · exact List.mem_cons_of_mem _
              (ih l0 (by rw [hS]; exact List.mem_cons_self _ _) c hc2)
        · exact List.mem_cons_of_mem _
            (ih p (by rw [hS]; exact List.mem_cons_of_mem _ hp2) c hc)

theorem joinNl_cons (l : List Char) (ls : List (List Char)) (h : ls ≠ []) :
    joinNl (l :: ls) = l ++ '\n' :: joinNl ls := by
  rcases ls with _ | ⟨l1, ls2⟩
  · exact absurd rfl h
  · rfl

theorem joinNl_splitOnNl : ∀ l : List Char, joinNl (splitOnNl l) = l := by
  intro l
  induction l with
  | nil => rfl
  | cons a rest ih =>
    rw [splitOnNl]
    by_cases ha : a = '\n'
    · rw [if_pos ha, joinNl_cons [] (splitOnNl rest) (splitOnNl_ne_nil rest), ih, ha]
      rfl
    · rw [if_neg ha]
      rcases hS : splitOnNl rest with _ | ⟨l0, ls⟩
      · exact absurd hS (splitOnNl_ne_nil rest)
      · rw [hS] at ih
        rcases ls with _ | ⟨l1, ls2⟩
        · show a :: l0 = a :: rest
          exact congrArg (List.cons a) ih
        · show joinNl ((a :: l0) :: l1 :: ls2) = a :: rest
          rw [joinNl_cons (a :: l0) (l1 :: ls2) (by simp),
              joinNl_cons l0 (l1 :: ls2) (by simp)] at *
          rw [List.cons_append, ih]

theorem clean_service_markers_no_eq (text : String) (h : '=' ∉ text.data) :
    clean_service_markers text = pyStrip text := by
  rw [clean_service_markers]
  have hmap : (splitOnNl text.data).map
      (fun ln => if isNeedMoreLine ln then [] else ln) = splitOnNl text.data := by
    have hcongr := List.map_congr_left (f := fun ln => if isNeedMoreLine ln then [] else ln)
      (g := id) (l := splitOnNl text.data) ?hfg
    · rw [hcongr, List.map_id]
    · intro p hp
      have hno : isNeedMoreLine p = false := by
        apply isNeedMoreLine_false_of_no_eq
        intro hmem
        exact h (mem_splitOnNl text.data p hp '=' hmem)
      simp [hno]
  rw [hmap, joinNl_splitOnNl]

theorem pyRstripL_eq_self : ∀ l : List Char,
    (∀ c, l.getLast? = some c → isPySpace c = false) → pyRstripL l = l := by
  intro l
  induction l with
  | nil => intro _; rfl
  | cons a rest ih =>
    intro h
    rcases rest with _ | ⟨b, t⟩
    · have ha : isPySpace a = false := h a (by simp)
      rw [pyRstripL]
      simp [ha]
      rfl
    · have hr : pyRstripL (b :: t) = b :: t := by
        apply ih
        intro c hc
        apply h
        rw [List.getLast?_cons_cons]
        exact hc
      rw [pyRstripL]
      simp only [hr]
      simp

theorem pyStripL_eq_self (l : List Char)
    (hh : ∀ c, l.head? = some c → isPySpace c = false)
    (hl : ∀ c, l.getLast? = some c → isPySpace c = false) : pyStripL l = l := by
  rw [pyStripL]
  have hdw : l.dropWhile isPySpace = l := by
    rcases l with _ | ⟨a, t⟩
    · rfl
    · exact List.dropWhile_cons_of_neg (by simp [hh a rfl])
  rw [hdw]
  exact pyRstripL_eq_self l hl

theorem pyQuote_data (t : String) :
    (pyQuote t).data = t.data.take 320 ++ (if 320 < t.length then ['…'] else []) := by
  rw [pyQuote]
  by_cases h : 320 < t.length
  · rw [if_pos h, if_pos h]
    rfl
  · rw [if_neg h, if_neg h]
    rfl

theorem mem_pyQuote (t : String) (c : Char) (h : c ∈ (pyQuote t).data) :
    c ∈ t.data ∨ c = '…' := by
  rw [pyQuote_data] at h
  rcases List.mem_append.mp h with h1 | h2
  · exact Or.inl (List.mem_of_mem_take h1)
  · right
    by_cases ht : 320 < t.length
    · rw [if_pos ht] at h2; simpa using h2
    · rw [if_neg ht] at h2; simp at h2

theorem pyQuote_ne_empty (t : String) (h : t ≠ "") : pyQuote t ≠ "" := by
  intro hc
  have hd : (pyQuote t).data = [] := by rw [hc]
  rw [pyQuote_data] at hd
  have h320 : t.data.take 320 = [] := (List.append_eq_nil.mp hd).1
  rcases List.take_eq_nil_iff.mp h320 with h0 | hnil
  · simp at h0
  · exact h (String.ext hnil)

theorem pyJoin_cons_cons (sep a b : String) (t : List String) :
    pyJoin sep (a :: b :: t) = a ++ sep ++ pyJoin sep (b :: t) := rfl

theorem mem_pyJoin (sep : String) : ∀ (l : List String) (c : Char),
    c ∈ (pyJoin sep l).data → c ∈ sep.data ∨ ∃ p ∈ l, c ∈ p.data := by
  intro l
  induction l with
  | nil => intro c hc; cases hc
  | cons a rest ih =>
    intro c hc
    rcases rest with _ | ⟨b, t⟩
    · exact Or.inr ⟨a, by simp, hc⟩
    · have hc2 : c ∈ a.data ++ sep.data ++ (pyJoin sep (b :: t)).data := hc
      rcases List.mem_append.mp hc2 with h1 | h2
      · rcases List.mem_append.mp h1 with ha | hs
        · exact Or.inr ⟨a, by simp, ha⟩
        · exact Or.inl hs
      · rcases ih c h2 with hs | ⟨p, hp, hcp⟩
        · exact Or.inl hs
        · exact Or.inr ⟨p, List.mem_cons_of_mem _ hp, hcp⟩

theorem pyJoin_data_cons (sep a : String) (t : List String) :
    ∃ r : List Char, (pyJoin sep (a :: t)).data = a.data ++ r := by
  rcases t with _ | ⟨b, t2⟩
  · exact ⟨[], (List.append_nil _).symm⟩
  · refine ⟨sep.data ++ (pyJoin sep (b :: t2)).data, ?_⟩
    rw [pyJoin_cons_cons]
    show a.data ++ sep.data ++ _ = _
    rw [List.append_assoc]

theorem pyJoin_getLast? (sep : String) : ∀ (l : List String),
    l ≠ [] → (∀ p ∈ l, p.data ≠ []) →
    ∃ p ∈ l, (pyJoin sep l).data.getLast? = p.data.getLast? := by
  intro l
  induction l with
  | nil => intro hne _; exact absurd rfl hne
  | cons a rest ih =>
    intro _ hp
    rcases rest with _ | ⟨b, t⟩
    · exact ⟨a, by simp, rfl⟩
    · obtain ⟨p, hpm, hgl⟩ := ih (by simp)
        (fun q hq => hp q (List.mem_cons_of_mem _ hq))
      have hpne : p.data ≠ [] := hp p (List.mem_cons_of_mem _ hpm)
      have hjne : (pyJoin sep (b :: t)).data ≠ [] := by
        intro h0
        rw [h0] at hgl
        exact hpne (List.getLast?_eq_none_iff.mp hgl.symm)
      refine ⟨p, List.mem_cons_of_mem _ hpm, ?_⟩
      show ((a ++ sep ++ pyJoin sep (b :: t)).data).getLast? = _
      have hsplit : (a ++ sep ++ pyJoin sep (b :: t)).data
          = (a.data ++ sep.data) ++ (pyJoin sep (b :: t)).data := by
        show a.data ++ sep.data ++ _ = _
        rw [List.append_assoc]
      rw [hsplit, List.getLast?_append_of_ne_nil _ hjne]
      exact hgl

theorem citMarkers_cons_ne (c : Char) (l : List Char) (hc : c ≠ '[') :
    citMarkers (c :: l) = citMarkers l := by
  rw [citMarkers.eq_def]
  split
  · rename_i c1 c2 c3 r3 heq
    injection heq with h1 _
    exact absurd h1 hc
  · rename_i c1 c2 heq
    injection heq with h1 _
    exact absurd h1 hc
  · rename_i c1 heq
    injection heq with h1 _
    exact absurd h1 hc
  · rename_i heq
    injection heq with h1 _
    exact absurd h1 hc
  · rename_i d r heq
    injection heq with _ h2
    rw [h2]
  · rename_i heq
    cases heq

theorem citMarkers_append_ne : ∀ (a b : List Char), (∀ c ∈ a, c ≠ '[') →
    citMarkers (a ++ b) = citMarkers b := by
  intro a
  induction a with
  | nil => intro b _; rfl
  | cons c t ih =>
    intro b h
    rw [List.cons_append,
        citMarkers_cons_ne c (t ++ b) (h c (List.mem_cons_self _ _)),
        ih b (fun x hx => h x (List.mem_cons_of_mem _ hx))]

theorem citMarkers_marker (d : Char) (rest : List Char) (hd : d.isDigit = true) :
    citMarkers ('[' :: d :: ']' :: rest) = (d.toNat - 48) :: citMarkers rest := by
  have hrb : (']' : Char).isDigit = false := by decide
  rcases rest with _ | ⟨c3, r⟩
  · rw [citMarkers.eq_def]
    simp [hd]
    rfl
  · rw [citMarkers.eq_def]
    simp [hd, hrb]

theorem mem_mkCitations : ∀ (i : Nat) (hs : List Hit) (c : Citation),
    c ∈ mkCitations i hs → ∃ h ∈ hs, c.quote = pyQuote h.text := by
  intro i hs
  induction hs generalizing i with
  | nil => intro c hc; cases hc
  | cons a t ih =>
    intro c hc
    rw [mkCitations] at hc
    rcases List.mem_cons.mp hc with rfl | hc2
    · exact ⟨a, List.mem_cons_self _ _, rfl⟩
    · obtain ⟨h, hm, hq⟩ := ih (i + 1) c hc2
      exact ⟨h, List.mem_cons_of_mem _ hm, hq⟩

theorem mem_mkCitations_n : ∀ (i : Nat) (hs : List Hit) (c : Citation),
    c ∈ mkCitations i hs → i ≤ c.n ∧ c.n < i + hs.length := by
  intro i hs
  induction hs generalizing i with
  | nil => intro c hc; cases hc
  | cons a t ih =>
    intro c hc
    rw [mkCitations] at hc
    rcases List.mem_cons.mp hc with rfl | hc2
    · simp
    · have := ih (i + 1) c hc2
      simp only [List.length_cons]
      omega

theorem mkCitations_take : ∀ (k i : Nat) (hs : List Hit),
    (mkCitations i hs).take k = mkCitations i (hs.take k) := by
  intro k
  induction k with
  | zero => intro i hs; rfl
  | succ k ih =>
    intro i hs
    rcases hs with _ | ⟨a, t⟩
    · rfl
    · rw [mkCitations, List.take_succ_cons, ih (i + 1) t]
      rfl

theorem pyStrip_idem (s : String) : pyStrip (pyStrip s) = pyStrip s :=
  congrArg String.mk (pyStripL_idem s.data)

theorem deduplicate_hits_subset (sha1 : String → String) (hits : List Hit) :
    ∀ h ∈ deduplicate_hits sha1 hits, h ∈ hits := by
  intro h hm
  rw [deduplicate_hits] at hm
  obtain ⟨p, hp, hps⟩ := List.mem_map.mp hm
  have hinv := (dedup_fold_inv sha1 hits [] []
    rfl (by intro p hp; cases hp)).2 p hp
  rw [← hps]
  simpa using hinv.2.1

theorem deduplicate_hits_ne_nil (sha1 : String → String) (hits : List Hit)
    (h : hits ≠ []) : deduplicate_hits sha1 hits ≠ [] := by
  intro hc
  rw [deduplicate_hits] at hc
  have hkeys := (dedup_fold_inv sha1 hits [] []
    rfl (by intro p hp; cases hp)).1
  rw [List.map_eq_nil_iff] at hc
  rw [hc] at hkeys
  rcases hits with _ | ⟨g, t⟩
  · exact h rfl
  · have hmem : dedup_key sha1 g ∈ firstOccKeys (((g :: t)).map (dedup_key sha1)) := by
      rw [mem_firstOccKeys]
      exact List.mem_map_of_mem _ (List.mem_cons_self _ _)
    rw [List.nil_append] at hkeys
    rw [← hkeys] at hmem
    cases hmem

theorem preview_mem_props (D : List Hit)
    (htxt : ∀ h ∈ D, h.text ≠ "" ∧ ∀ c ∈ h.text.data,
      isPySpace c = false ∧ c ≠ '[' ∧ c ≠ '=')
    (p : String)
    (hp : p ∈ (((mkCitations 1 D).take 3).filter (fun c => c.quote ≠ "")).map
      (fun c => "[" ++ toString c.n ++ "] " ++ c.quote)) :
    p.data ≠ [] ∧
    (∀ c ∈ p.data, c ≠ '=') ∧
    (∀ c, p.data.getLast? = some c → isPySpace c = false) := by
  obtain ⟨cit, hcitm, hpeq⟩ := List.mem_map.mp hp
  obtain ⟨hcit_take, hq_ne'⟩ := List.mem_filter.mp hcitm
  have hq_ne : cit.quote ≠ "" := of_decide_eq_true hq_ne'
  rw [mkCitations_take] at hcit_take
  obtain ⟨hh, hhm, hq⟩ := mem_mkCitations 1 (D.take 3) cit hcit_take
  have hhm' : hh ∈ D := List.mem_of_mem_take hhm
  obtain ⟨hhne, hchars⟩ := htxt hh hhm'
  have hn : cit.n = 1 ∨ cit.n = 2 ∨ cit.n = 3 := by
    have hb := mem_mkCitations_n 1 (D.take 3) cit hcit_take
    have hlen : (D.take 3).length ≤ 3 := List.length_take_le _ _
    omega
  have hts : (toString cit.n).data = ['1'] ∨ (toString cit.n).data = ['2'] ∨
      (toString cit.n).data = ['3'] := by
    rcases hn with h | h | h
    · left; rw [h]; decide
    · right; left; rw [h]; decide
    · right; right; rw [h]; decide
  have hpdata : p.data = '[' :: ((toString cit.n).data ++ ']' :: ' ' :: cit.quote.data) := by
    rw [← hpeq]
    show (("[" ++ toString cit.n ++ "] ") ++ cit.quote).data = _
    show ("[" ++ toString cit.n ++ "] ").data ++ cit.quote.data = _
    show (("[" ++ toString cit.n) ++ "] ").data ++ cit.quote.data = _
    show (("[" ++ toString cit.n).data ++ [']', ' ']) ++ cit.quote.data = _
    show (('[' :: (toString cit.n).data) ++ [']', ' ']) ++ cit.quote.data = _
    simp
  have hquote_chars : ∀ c ∈ cit.quote.data, isPySpace c = false ∧ c ≠ '[' ∧ c ≠ '=' := by
    intro c hc
    rw [hq] at hc
    rcases mem_pyQuote _ c hc with hm | rfl
    · exact hchars c hm
    · refine ⟨by decide, by decide, by decide⟩
  refine ⟨?_, ?_, ?_⟩
  · rw [hpdata]; simp
  · intro c hc
    rw [hpdata] at hc
    rcases List.mem_cons.mp hc with rfl | hc2
    · decide
    · rcases List.mem_append.mp hc2 with hx | hy
      · rcases hts with h | h | h <;> rw [h] at hx <;> simp at hx <;> subst hx <;> decide
      · rcases List.mem_cons.mp hy with rfl | hy2
        · decide
        · rcases List.mem_cons.mp hy2 with rfl | hy3
          · decide
          · exact (hquote_chars c hy3).2.2
  · intro c hlast
    rw [hpdata] at hlast
    have hqne : cit.quote.data ≠ [] := by
      intro h0; exact hq_ne (String.ext h0)
    have hshape : ('[' :: ((toString cit.n).data ++ ']' :: ' ' :: cit.quote.data)).getLast?
        = cit.quote.data.getLast? := by
      rw [show '[' :: ((toString cit.n).data ++ ']' :: ' ' :: cit.quote.data)
          = ('[' :: (toString cit.n).data ++ [']', ' ']) ++ cit.quote.data from by simp]
      exact List.getLast?_append_of_ne_nil _ hqne
    rw [hshape] at hlast
    have hcm : c ∈ cit.quote.data := List.mem_of_mem_getLast? hlast
    exact (hquote_chars c hcm).1

theorem fallback_strip_shape (preview : List String) (q1 : String)
    (rest : List String)
    (hpv : preview = ("[" ++ toString 1 ++ "] " ++ q1) :: rest)
    (hprops : ∀ p ∈ preview, p.data ≠ [] ∧ (∀ c ∈ p.data, c ≠ '=') ∧
      (∀ c, p.data.getLast? = some c → isPySpace c = false)) :
    pyStripL (fallbackBody preview).data = (fallbackBody preview).data ∧
    ('=' ∉ (fallbackBody preview).data) ∧
    1 ∈ citMarkers (fallbackBody preview).data := by
  subst hpv
  have hp1data : ("[" ++ toString 1 ++ "] " ++ q1).data
      = '[' :: '1' :: ']' :: ' ' :: q1.data := rfl
  obtain ⟨r, hjoinData⟩ := pyJoin_data_cons "\n\n" ("[" ++ toString 1 ++ "] " ++ q1) rest
  have hjoinne : (pyJoin "\n\n" (("[" ++ toString 1 ++ "] " ++ q1) :: rest)).data ≠ [] := by
    rw [hjoinData, hp1data]
    simp
  have hbody : (fallbackBody (("[" ++ toString 1 ++ "] " ++ q1) :: rest)).data
      = ("Не вдалося сформувати відповідь через LLM. " ++
          "Нижче — релевантні фрагменти для консультації:\n\n" : String).data ++
        (pyJoin "\n\n" (("[" ++ toString 1 ++ "] " ++ q1) :: rest)).data := rfl
  refine ⟨?_, ?_, ?_⟩
  · apply pyStripL_eq_self
    · intro c hc
      rw [hbody, List.head?_append_of_ne_nil _ (by decide)] at hc
      have h2 : (("Не вдалося сформувати відповідь через LLM. " ++
          "Нижче — релевантні фрагменти для консультації:\n\n" : String)).data.head?
          = some 'Н' := by decide
      rw [h2] at hc
      injection hc with hc2
      rw [← hc2]
      decide
    · intro c hc
      rw [hbody, List.getLast?_append_of_ne_nil _ hjoinne] at hc
      obtain ⟨p, hpm, hgl⟩ := pyJoin_getLast? "\n\n"
        (("[" ++ toString 1 ++ "] " ++ q1) :: rest) (by simp)
        (fun p hp => (hprops p hp).1)
      rw [hgl] at hc
      exact (hprops p hpm).2.2 c hc
  · intro hc
    rw [hbody] at hc
    rcases List.mem_append.mp hc with h1 | h2
    · revert h1; decide
    · rcases mem_pyJoin _ _ _ h2 with hs | ⟨p, hpm, hcp⟩
      · revert hs; decide
      · exact (hprops p hpm).2.1 '=' hcp rfl
  · have hm : citMarkers (fallbackBody (("[" ++ toString 1 ++ "] " ++ q1) :: rest)).data
        = 1 :: citMarkers (' ' :: (q1.data ++ r)) := by
      rw [hbody, hjoinData, citMarkers_append_ne _ _ (by decide), hp1data]
      rw [show ('[' :: '1' :: ']' :: ' ' :: q1.data) ++ r
          = '[' :: '1' :: ']' :: ' ' :: (q1.data ++ r) from by simp]
      rw [citMarkers_marker '1' (' ' :: (q1.data ++ r)) (by decide)]
      rw [show ('1' : Char).toNat - 48 = 1 from rfl]
    rw [hm]
    exact List.mem_cons_self _ _

theorem filter_quote_cons (c0 : Citation) (l : List Citation) (h : c0.quote ≠ "") :
    (c0 :: l).filter (fun c => c.quote ≠ "") = c0 :: l.filter (fun c => c.quote ≠ "") :=
  List.filter_cons_of_pos (decide_eq_true h)

theorem filter_n_cons (c0 : Citation) (l : List Citation) (used : List Nat)
    (h : c0.n ∈ used) :
    (c0 :: l).filter (fun c => c.n ∈ used) = c0 :: l.filter (fun c => c.n ∈ used) :=
  List.filter_cons_of_pos (decide_eq_true h)

theorem fallback_core (D : List Hit) (hne : D ≠ [])
    (htxt : ∀ h ∈ D, h.text ≠ "" ∧ ∀ c ∈ h.text.data,
      isPySpace c = false ∧ c ≠ '[' ∧ c ≠ '=') :
    clean_service_markers (mkFallbackAnswer (mkCitations 1 D))
        = mkFallbackAnswer (mkCitations 1 D) ∧
    filter_citations (mkCitations 1 D)
        (extract_used_numbers (mkFallbackAnswer (mkCitations 1 D))) ≠ [] ∧
    ∀ c ∈ filter_citations (mkCitations 1 D)
        (extract_used_numbers (mkFallbackAnswer (mkCitations 1 D))),
      c ∈ mkCitations 1 D := by
  rcases D with _ | ⟨h1, t⟩
  · exact absurd rfl hne
  have hq1 : pyQuote h1.text ≠ "" :=
    pyQuote_ne_empty _ (htxt h1 (List.mem_cons_self _ _)).1
  have hC1 : mkCitations 1 (h1 :: t)
      = ({ n := 1, document_id := h1.document_id, chunk_id := h1.chunk_id
         , title := h1.title, url := h1.url, path := h1.path
         , heading := h1.heading, unit_type := h1.unit_type
         , unit_id := h1.unit_id, quote := pyQuote h1.text
         , score := h1.score } : Citation) :: mkCitations (1 + 1) t := by
    rw [mkCitations]
  have hpv : (((mkCitations 1 (h1 :: t)).take 3).filter (fun c => c.quote ≠ "")).map
      (fun c => "[" ++ toString c.n ++ "] " ++ c.quote)
      = ("[" ++ toString 1 ++ "] " ++ pyQuote h1.text) ::
        ((((mkCitations (1 + 1) t).take 2).filter (fun c => c.quote ≠ "")).map
          (fun c => "[" ++ toString c.n ++ "] " ++ c.quote)) := by
    rw [hC1, List.take_succ_cons, filter_quote_cons _ _ (by exact hq1),
        List.map_cons]
  have hprops : ∀ p ∈ (((mkCitations 1 (h1 :: t)).take 3).filter
        (fun c => c.quote ≠ "")).map
        (fun c => "[" ++ toString c.n ++ "] " ++ c.quote),
      p.data ≠ [] ∧ (∀ c ∈ p.data, c ≠ '=') ∧
      (∀ c, p.data.getLast? = some c → isPySpace c = false) :=
    fun p hp => preview_mem_props (h1 :: t) htxt p hp
  obtain ⟨hstrip, hnoeq, hmark⟩ := fallback_strip_shape _ _ _ hpv hprops
  have hFeq : mkFallbackAnswer (mkCitations 1 (h1 :: t))
      = pyStrip (fallbackBody
          ((((mkCitations 1 (h1 :: t)).take 3).filter (fun c => c.quote ≠ "")).map
            (fun c => "[" ++ toString c.n ++ "] " ++ c.quote))) := rfl
  have hFdata : (mkFallbackAnswer (mkCitations 1 (h1 :: t))).data
      = (fallbackBody
          ((((mkCitations 1 (h1 :: t)).take 3).filter (fun c => c.quote ≠ "")).map
            (fun c => "[" ++ toString c.n ++ "] " ++ c.quote))).data := by
    rw [hFeq]
    exact hstrip
  have hstripF : pyStrip (mkFallbackAnswer (mkCitations 1 (h1 :: t)))
      = mkFallbackAnswer (mkCitations 1 (h1 :: t)) := by
    have h2 : pyStripL (mkFallbackAnswer (mkCitations 1 (h1 :: t))).data
        = (mkFallbackAnswer (mkCitations 1 (h1 :: t))).data := by
      rw [hFdata]
      exact hstrip
    show String.mk (pyStripL (mkFallbackAnswer (mkCitations 1 (h1 :: t))).data) = _
    rw [h2]
  have hclean : clean_service_markers (mkFallbackAnswer (mkCitations 1 (h1 :: t)))
      = mkFallbackAnswer (mkCitations 1 (h1 :: t)) := by
    rw [clean_service_markers_no_eq _ (by rw [hFdata]; exact hnoeq)]
    exact hstripF
  have hex : 1 ∈ extract_used_numbers (mkFallbackAnswer (mkCitations 1 (h1 :: t))) := by
    rw [extract_used_numbers]
    exact (firstOcc_step_mem _ [] 1).mpr (Or.inr (by rw [hFdata]; exact hmark))
  have husedE : (extract_used_numbers
      (mkFallbackAnswer (mkCitations 1 (h1 :: t)))).isEmpty = false := by
    rcases hu : extract_used_numbers (mkFallbackAnswer (mkCitations 1 (h1 :: t)))
        with _ | ⟨a, b⟩
    · rw [hu] at hex; cases hex
    · rfl
  have hfilter : filter_citations (mkCitations 1 (h1 :: t))
      (extract_used_numbers (mkFallbackAnswer (mkCitations 1 (h1 :: t))))
      = (mkCitations 1 (h1 :: t)).filter (fun c => c.n ∈ extract_used_numbers
          (mkFallbackAnswer (mkCitations 1 (h1 :: t)))) := by
    rw [filter_citations, husedE]
    rw [if_neg Bool.false_ne_true]
  refine ⟨hclean, ?_, ?_⟩
  · rw [hfilter, hC1, filter_n_cons _ _ _ (by exact hex)]
    simp
  · intro c hc
    rw [hfilter] at hc
    exact List.mem_of_mem_filter hc

/-- C4 counterexample: with one retrieved hit and a completion call that
raises after its retries, `answer_question` returns the fallback excerpt
preview as the answer, but the citation list is NOT empty — the preview
itself contains the marker `[1]`, `_extract_used_numbers` re-extracts it
from the degraded answer, and `_filter_citations` then keeps citation 1. -/
theorem answer_question_failure_citations_counterexample :
    (answerCore (fun s => s) [hitC4] none).citations.map (fun c => c.n) = [1] ∧
    (answerCore (fun s => s) [hitC4] none).citations ≠ [] := by
  constructor <;> decide

/-- C4 (amended): completion-failure degradation.  For every non-empty hit
list (whose texts are non-empty and free of whitespace, `[` and `=`
characters, so that the excerpts survive the marker-stripping verbatim), if
the completion call raises after exhausting its retries, `answer_question`
does not propagate the failure: the answer is the fallback excerpt preview
built from the top raw excerpts — and the citation list is not empty
(contrary to the spec): it consists of citations re-extracted from the
preview's own `[n]` markers, a non-empty subset of the numbered hits. -/
theorem answer_question_failure_returns_preview_citations
    (sha1 : String → String) (hits : List Hit)
    (hne : hits ≠ [])
    (htxt : ∀ h ∈ hits, h.text ≠ "" ∧ ∀ c ∈ h.text.data,
      isPySpace c = false ∧ c ≠ '[' ∧ c ≠ '=') :
    (answerCore sha1 hits none).answer
        = mkFallbackAnswer (mkCitations 1 (deduplicate_hits sha1 hits)) ∧
    (answerCore sha1 hits none).citations ≠ [] ∧
    ∀ c ∈ (answerCore sha1 hits none).citations,
      c ∈ mkCitations 1 (deduplicate_hits sha1 hits) := by
  have hne' : deduplicate_hits sha1 hits ≠ [] :=
    deduplicate_hits_ne_nil sha1 hits hne
  have htxt' : ∀ h ∈ deduplicate_hits sha1 hits, h.text ≠ "" ∧
      ∀ c ∈ h.text.data, isPySpace c = false ∧ c ≠ '[' ∧ c ≠ '=' :=
    fun h hm => htxt h (deduplicate_hits_subset sha1 hits h hm)
  have hiE : (deduplicate_hits sha1 hits).isEmpty = false := by
    rw [List.isEmpty_eq_false]; exact hne'
  obtain ⟨hclean, hfne, hfsub⟩ :=
    fallback_core (deduplicate_hits sha1 hits) hne' htxt'
  have hcore : answerCore sha1 hits none =
      { answer := clean_service_markers (mkFallbackAnswer
          (mkCitations 1 (deduplicate_hits sha1 hits)))
      , citations := filter_citations (mkCitations 1 (deduplicate_hits sha1 hits))
          (extract_used_numbers (clean_service_markers (mkFallbackAnswer
            (mkCitations 1 (deduplicate_hits sha1 hits))))) } := by
    simp only [answerCore]
    rw [hiE]
    rw [if_neg Bool.false_ne_true]
    rfl
  have hans : (answerCore sha1 hits none).answer
      = clean_service_markers (mkFallbackAnswer
          (mkCitations 1 (deduplicate_hits sha1 hits))) := by
    rw [hcore]
  have hcit : (answerCore sha1 hits none).citations
      = filter_citations (mkCitations 1 (deduplicate_hits sha1 hits))
          (extract_used_numbers (clean_service_markers (mkFallbackAnswer
            (mkCitations 1 (deduplicate_hits sha1 hits))))) := by
    rw [hcore]
  refine ⟨?_, ?_, ?_⟩
  · rw [hans]
    exact hclean
  · rw [hcit, hclean]
    exact hfne
  · intro c hc
    rw [hcit, hclean] at hc
    exact hfsub c hc

/-- C4 witness: the amended theorem applied to the concrete hit. -/
theorem answer_question_failure_returns_preview_citations_witness :
    ([hitC4] ≠ []) ∧ (answerCore (fun s => s) [hitC4] none).citations ≠ [] :=
  ⟨by decide,
   (answer_question_failure_returns_preview_citations (fun s => s) [hitC4]
     (by decide) (by decide)).2.1⟩

end GovBot
